import Mathlib

/-!
Shallow embedding of the review task queue engine of
`hasher-matcher-actioner/review-tool/backend` (files `queue_config.py` and
`queue_manager.py`).

Modelling conventions:
* The Redis store is modelled as an explicit state record (`RState`): sorted
  sets (`bull:<queue>:wait / :active / :completed`) become score-sorted
  association lists, per-task hashes (`bull:<queue>:<job_id>` field `data`)
  become an association list keyed by (queue name, job id), and the metrics
  hash becomes an association list keyed by (queue name, field name).
* Wall-clock time (`time.time()`) is modelled by a logical clock stored in
  the state, bumped once per engine operation; `int(time.time() * 1000)` is
  the clock value.  Job ids `task:<ms>:<imageId>` are modelled by the record
  `JobId` holding the two components; Redis orders tied sorted-set members
  by the byte-lexicographic order of the id string, which for timestamp
  strings of equal digit length coincides with the lexicographic order on
  (ms, imageId) used here.
* Python `ValueError` (mapped to HTTP 400 / InvalidArgument by routes.py)
  becomes `Except.error`; each operation returns its result together with
  the (possibly updated) state.
* ISO timestamp fields (`createdAt`, `startedAt`, `completedAt`,
  `escalatedAt`) are plain bookkeeping strings never read by the engine and
  are not represented.  Metric values, stored as strings by Redis and parsed
  with `int(...)` on read, are modelled as integers directly.  The float
  arithmetic of `successRate` is modelled over `Rat` (exact for the values
  the claims mention).
-/

namespace ReviewTool

/-- Job identity: the source builds `task:{int(time.time()*1000)}:{image_id}`;
we keep the two components. -/
structure JobId where
  ms : Nat
  imageId : Int
deriving DecidableEq

/-- Lexicographic order on job ids, mirroring Redis' tie order on the
`task:<ms>:<imageId>` member strings (for equal-digit-length timestamps). -/
def JobId.ltb (a b : JobId) : Bool :=
  a.ms < b.ms || (a.ms == b.ms && a.imageId < b.imageId)

/-- The metadata bag of a task; the engine only ever writes the
`originalJobId` / `notes` keys (escalation) and otherwise stores the
caller's bag opaquely, so those two fields model it. -/
structure TaskMeta where
  originalJobId : Option JobId := none
  notes : Option String := none
deriving DecidableEq

/-- The serialized task record (`job_data` in `queue_manager.py`). -/
structure Job where
  id : JobId
  imageId : Int
  contentCategory : String
  hashAlgorithm : String
  confidenceLevel : String
  isEscalated : Bool
  status : String
  result : Option String := none
  notes : Option String := none
  metadata : TaskMeta
deriving DecidableEq

/-! queue_config.py -/

/-- CONTENT_CATEGORIES from queue_config.py. -/
def CONTENT_CATEGORIES : List String :=
  ["adult", "violence", "hate_speech", "terrorism", "self_harm", "spam", "other"]

namespace QueueNames

def PDQ : String := "pdq"
def MD5 : String := "md5"
def SHA1 : String := "sha1"
def ESCALATED : String := "escalated"
def MANUAL : String := "manual"

/-- QueueNames.get_all from queue_config.py. -/
def get_all : List String := [PDQ, MD5, SHA1, ESCALATED, MANUAL]

/-- QueueNames.get_hash_types from queue_config.py. -/
def get_hash_types : List String := [PDQ, MD5, SHA1]

end QueueNames

namespace ConfidenceLevels

def HIGH : String := "high"
def MEDIUM : String := "medium"
def LOW : String := "low"

/-- ConfidenceLevels.get_all from queue_config.py. -/
def get_all : List String := [HIGH, MEDIUM, LOW]

end ConfidenceLevels

/-- get_queue_name from queue_config.py (QUEUE_PREFIX is "review"). -/
def get_queue_name (queue_type category : String) (is_escalated : Bool) : String :=
  "review" ++ ":" ++ queue_type ++ ":" ++ category ++
    (if is_escalated then "_escalated" else "")

/-! Store primitives: association lists and score-sorted sets. -/

/-- Lookup in an association list (Redis HGET / ZSCORE). -/
def alGet {α β : Type} [DecidableEq α] : List (α × β) → α → Option β
  | [], _ => none
  | (k', v) :: rest, k => if k' = k then some v else alGet rest k

/-- Update / insert in an association list (Redis HSET). -/
def alSet {α β : Type} [DecidableEq α] : List (α × β) → α → β → List (α × β)
  | [], k, v => [(k, v)]
  | (k', v') :: rest, k, v =>
      if k' = k then (k, v) :: rest else (k', v') :: alSet rest k v

/-- Insert an entry in score order (ties by member order); sorted sets are
kept sorted by (score ascending, member ascending), the iteration order of
Redis ZRANGE. -/
def zinsert (j : JobId) (sc : Int) : List (JobId × Int) → List (JobId × Int)
  | [] => [(j, sc)]
  | (j', sc') :: rest =>
      if sc < sc' ∨ (sc = sc' ∧ JobId.ltb j j') then (j, sc) :: (j', sc') :: rest
      else (j', sc') :: zinsert j sc rest

/-- Redis ZADD: replaces any existing entry for the member, then inserts
in sorted position. -/
def zadd (z : List (JobId × Int)) (j : JobId) (sc : Int) : List (JobId × Int) :=
  zinsert j sc (z.filter (fun p => decide (p.1 ≠ j)))

/-- Redis ZREM. -/
def zrem (z : List (JobId × Int)) (j : JobId) : List (JobId × Int) :=
  z.filter (fun p => decide (p.1 ≠ j))

/-- Redis ZRANGE key 0 0: the member with the least (score, member) pair. -/
def zrange00 (z : List (JobId × Int)) : Option JobId :=
  z.head?.map Prod.fst

/-- Redis ZRANGE key 0 0 WITHSCORES: least entry with its score. -/
def zrange00WithScores (z : List (JobId × Int)) : Option (JobId × Int) :=
  z.head?

/-- Redis ZSCORE. -/
def zscore (z : List (JobId × Int)) (j : JobId) : Option Int :=
  alGet z j

/-- The members of a sorted set. -/
def zmembers (z : List (JobId × Int)) : List JobId :=
  z.map Prod.fst

/-- The whole Redis state used by the queue engine. -/
structure RState where
  clock : Nat
  data : List ((String × JobId) × Job)
  wait : List (String × List (JobId × Int))
  active : List (String × List (JobId × Int))
  completed : List (String × List (JobId × Int))
  metrics : List ((String × String) × Int)
deriving DecidableEq

/-- The empty store. -/
def initState : RState := ⟨0, [], [], [], [], []⟩

/-- Stored task record at `bull:<qn>:<j>` field `data`. -/
def dataOf (s : RState) (qn : String) (j : JobId) : Option Job :=
  alGet s.data (qn, j)

/-- The wait sorted set of a queue. -/
def waitOf (s : RState) (qn : String) : List (JobId × Int) :=
  (alGet s.wait qn).getD []

/-- The active sorted set of a queue. -/
def activeOf (s : RState) (qn : String) : List (JobId × Int) :=
  (alGet s.active qn).getD []

/-- The completed sorted set of a queue. -/
def completedOf (s : RState) (qn : String) : List (JobId × Int) :=
  (alGet s.completed qn).getD []

/-- A metrics counter (HGET of the metrics hash, default 0). -/
def metricOf (s : RState) (qn field : String) : Int :=
  (alGet s.metrics (qn, field)).getD 0

def setData (s : RState) (qn : String) (j : JobId) (job : Job) : RState :=
  { s with data := alSet s.data (qn, j) job }

def setWait (s : RState) (qn : String) (z : List (JobId × Int)) : RState :=
  { s with wait := alSet s.wait qn z }

def setActive (s : RState) (qn : String) (z : List (JobId × Int)) : RState :=
  { s with active := alSet s.active qn z }

def setCompleted (s : RState) (qn : String) (z : List (JobId × Int)) : RState :=
  { s with completed := alSet s.completed qn z }

/-- Redis HINCRBY on the metrics hash. -/
def hincr (s : RState) (qn field : String) (d : Int) : RState :=
  { s with metrics := alSet s.metrics (qn, field) (metricOf s qn field + d) }

/-! The four engine operations of QueueManager (queue_manager.py). -/

/-- QueueManager.add_review_task.  `ValueError` is `Except.error`; the state
is returned unchanged on error (validation precedes every store write).
The returned job id is `task:{int(time.time()*1000)}:{image_id}`, i.e. the
current clock paired with the image id. -/
def add_review_task (s : RState) (image_id : Int)
    (content_category hash_algorithm confidence_level : String)
    (is_escalated : Bool) (priority : Int) (metadata : TaskMeta) :
    Except String JobId × RState :=
  if content_category ∉ CONTENT_CATEGORIES then
    (Except.error ("Invalid content category: " ++ content_category), s)
  else if hash_algorithm ∉ QueueNames.get_hash_types ∧
      hash_algorithm ≠ QueueNames.MANUAL then
    (Except.error ("Invalid hash algorithm: " ++ hash_algorithm), s)
  else if confidence_level ∉ ConfidenceLevels.get_all then
    (Except.error ("Invalid confidence level: " ++ confidence_level), s)
  else
    let job_id : JobId := ⟨s.clock, image_id⟩
    let queue_type := if is_escalated then QueueNames.ESCALATED else hash_algorithm
    let queue_name := get_queue_name queue_type content_category is_escalated
    let job : Job :=
      { id := job_id, imageId := image_id, contentCategory := content_category,
        hashAlgorithm := hash_algorithm, confidenceLevel := confidence_level,
        isEscalated := is_escalated, status := "pending", result := none,
        notes := none, metadata := metadata }
    let s1 := setData s queue_name job_id job
    let s2 := setWait s1 queue_name (zadd (waitOf s1 queue_name) job_id priority)
    let s3 := hincr s2 queue_name "total" 1
    let s4 := hincr s3 queue_name "pending" 1
    (Except.ok job_id, { s4 with clock := s4.clock + 1 })

/-- Python truthiness of the optional list filters: `None` and the empty
list both fall back to the default. -/
def orDefault (o : Option (List String)) (d : List String) : List String :=
  match o with
  | none => d
  | some [] => d
  | some l => l

/-- The confidence-level filter of get_next_task: the head job is skipped
iff the filter list is truthy and does not contain the job's level. -/
def confOk (confidence_levels : Option (List String)) (job : Job) : Bool :=
  match confidence_levels with
  | none => true
  | some [] => true
  | some l => l.contains job.confidenceLevel

/-- The read-only scanning phase of QueueManager.get_next_task: walk the
candidate (category, queue_type) pairs in order; in each queue look at the
head of the wait set, fetch its record, and apply the confidence filter
(`continue` on mismatch moves to the next queue, not deeper into the same
queue). -/
def scanQueues (s : RState) (esc : Bool) (confs : Option (List String)) :
    List (String × String) → Option (String × JobId × Job)
  | [] => none
  | (category, queue_type) :: rest =>
    let queue_name := get_queue_name queue_type category esc
    match zrange00 (waitOf s queue_name) with
    | none => scanQueues s esc confs rest
    | some job_id =>
      match dataOf s queue_name job_id with
      | none => scanQueues s esc confs rest
      | some job =>
        if confOk confs job then some (queue_name, job_id, job)
        else scanQueues s esc confs rest

/-- The mutation phase of QueueManager.get_next_task once a job has been
selected: ZREM from wait, ZADD to active scored by dispatch time, flip the
status to active, write the record back, and move one unit from the
pending to the active counter.  These are separate store commands in the
source; the phase split records exactly that boundary. -/
def getNextCommit (s : RState) (queue_name : String) (job_id : JobId)
    (job : Job) : Option Job × RState :=
  let job' := { job with status := "active" }
  let s1 := setWait s queue_name (zrem (waitOf s queue_name) job_id)
  let s2 := setActive s1 queue_name
    (zadd (activeOf s1 queue_name) job_id (Int.ofNat s.clock))
  let s3 := setData s2 queue_name job_id job'
  let s4 := hincr s3 queue_name "pending" (-1)
  let s5 := hincr s4 queue_name "active" 1
  (some job', { s5 with clock := s5.clock + 1 })

/-- The (category, queue type) pairs get_next_task scans, in loop order:
defaults are all categories and all non-escalated hash queues; a truthy
`is_escalated` forces scanning only the escalated partition. -/
def nextPairs (content_categories hash_algorithms : Option (List String))
    (is_escalated : Option Bool) : List (String × String) :=
  let categories := orDefault content_categories CONTENT_CATEGORIES
  let hash_types :=
    if is_escalated.getD false then [QueueNames.ESCALATED]
    else orDefault hash_algorithms QueueNames.get_hash_types
  categories.flatMap (fun c => hash_types.map (fun t => (c, t)))

/-- QueueManager.get_next_task: scan, then commit the selected job. -/
def get_next_task (s : RState)
    (content_categories hash_algorithms confidence_levels : Option (List String))
    (is_escalated : Option Bool) : Option Job × RState :=
  match scanQueues s (is_escalated.getD false) confidence_levels
      (nextPairs content_categories hash_algorithms is_escalated) with
  | none => (none, s)
  | some (queue_name, job_id, job) => getNextCommit s queue_name job_id job

/-- The queue names probed by the active-set scan of
QueueManager.complete_task, in loop order (category outer, queue type
middle, escalation flag inner). -/
def searchSpace : List String :=
  CONTENT_CATEGORIES.flatMap (fun category =>
    QueueNames.get_all.flatMap (fun queue_type =>
      [false, true].map (fun e => get_queue_name queue_type category e)))

/-- Python `if notes: job_data["notes"] = notes` (both None and the empty
string are falsy and leave the field alone). -/
def notesUpdate (notes old : Option String) : Option String :=
  match notes with
  | some n => if n = "" then old else some n
  | none => old

/-- The store mutations of a located complete_task call before the
escalation check: ZREM from active, ZADD to completed scored by completion
time, write the completed record back, bump the three counters. -/
def completeCore (s : RState) (queue_name : String) (job_id : JobId)
    (job : Job) (result : String) (notes : Option String) : RState :=
  let job' := { job with
    status := "completed"
    result := some result
    notes := notesUpdate notes job.notes }
  let s1 := setActive s queue_name (zrem (activeOf s queue_name) job_id)
  let s2 := setCompleted s1 queue_name
    (zadd (completedOf s1 queue_name) job_id (Int.ofNat s.clock))
  let s3 := setData s2 queue_name job_id job'
  let s4 := hincr s3 queue_name "active" (-1)
  let s5 := hincr s4 queue_name "completed" 1
  hincr s5 queue_name ("result:" ++ result) 1

/-- QueueManager.complete_task: locate the queue holding the job in its
active set; `Except.ok false` is the NotFound outcome.  On success apply
the completion mutations, and for result "escalated" synchronously add the
child task (same fields, escalated partition, priority 10, metadata
carrying the original job id and the notes). -/
def complete_task (s : RState) (job_id : JobId) (result : String)
    (notes : Option String) : Except String Bool × RState :=
  match searchSpace.find? (fun qn => (zscore (activeOf s qn) job_id).isSome) with
  | none => (Except.ok false, s)
  | some queue_name =>
    match dataOf s queue_name job_id with
    | none => (Except.ok false, s)
    | some job =>
      let s6 := completeCore s queue_name job_id job result notes
      if result = "escalated" then
        let ar := add_review_task s6 job.imageId job.contentCategory
          job.hashAlgorithm job.confidenceLevel true 10
          { originalJobId := some job_id, notes := notes }
        match ar.1 with
        | Except.ok _ => (Except.ok true, ar.2)
        | Except.error e => (Except.error e, ar.2)
      else
        (Except.ok true, { s6 with clock := s6.clock + 1 })

/-- One queue-stat record of QueueManager.get_queue_stats. -/
structure QueueStat where
  queueName : String
  contentCategory : String
  hashAlgorithm : String
  isEscalated : Bool
  pending : Int
  active : Int
  completed : Int
  successRate : Rat
  oldestTaskAge : Int
deriving DecidableEq

/-- Python truthiness of the optional string filters of get_queue_stats:
`None` and the empty string both fall back to the default list. -/
def strOrDefault (o : Option String) (d : List String) : List String :=
  match o with
  | none => d
  | some c => if c = "" then d else [c]

/-- QueueManager.get_queue_stats: for each candidate queue (escalated
queue type kept only when `is_escalated` is not False, and exclusively when
it is True), read the metrics hash and compute the success rate and the
oldest waiting job's age.  Read-only. -/
def get_queue_stats (s : RState) (content_category hash_algorithm : Option String)
    (is_escalated : Option Bool) : List QueueStat :=
  let escB : Bool := is_escalated.getD false
  let categories := strOrDefault content_category CONTENT_CATEGORIES
  let hash_types := strOrDefault hash_algorithm QueueNames.get_all
  categories.flatMap (fun category =>
    hash_types.filterMap (fun queue_type =>
      if escB ∧ queue_type ≠ QueueNames.ESCALATED then none
      else if is_escalated = some false ∧ queue_type = QueueNames.ESCALATED then none
      else
        let queue_name := get_queue_name queue_type category escB
        let total_completed := metricOf s queue_name "completed"
        let takedowns := metricOf s queue_name "result:rejected"
        let success_rate : Rat :=
          if total_completed > 0 then
            (takedowns : Rat) / (total_completed : Rat) * 100
          else 0
        let oldest_age : Int :=
          match zrange00WithScores (waitOf s queue_name) with
          | some (_, sc) => Int.ofNat s.clock - sc
          | none => 0
        some { queueName := queue_name, contentCategory := category,
               hashAlgorithm := queue_type, isEscalated := escB,
               pending := metricOf s queue_name "pending",
               active := metricOf s queue_name "active",
               completed := total_completed,
               successRate := success_rate,
               oldestTaskAge := oldest_age }))

/-! Operation traces over the engine, for reachability of store states. -/

/-- One engine call with its arguments. -/
inductive Op where
  | add (image_id : Int)
      (content_category hash_algorithm confidence_level : String)
      (is_escalated : Bool) (priority : Int) (metadata : TaskMeta)
  | next (content_categories hash_algorithms confidence_levels :
      Option (List String)) (is_escalated : Option Bool)
  | complete (job_id : JobId) (result : String) (notes : Option String)

/-- The state transition of one engine call. -/
def applyOp (s : RState) : Op → RState
  | Op.add i c h cf e p m => (add_review_task s i c h cf e p m).2
  | Op.next c h cf e => (get_next_task s c h cf e).2
  | Op.complete j r n => (complete_task s j r n).2

/-- Run a call sequence from the empty store. -/
def runOps (ops : List Op) : RState := ops.foldl applyOp initState

/-- A store state reachable by some engine call sequence. -/
def Reachable (s : RState) : Prop := ∃ ops, runOps ops = s

/-! Lemmas about the store primitives. -/

theorem alGet_alSet_self {α β : Type} [DecidableEq α] (l : List (α × β))
    (k : α) (v : β) : alGet (alSet l k v) k = some v := by
  induction l with
  | nil => simp [alGet, alSet]
  | cons p rest ih =>
    by_cases h : p.1 = k
    · simp [alSet, h, alGet]
    · simp [alSet, h, alGet, ih]

theorem alGet_alSet_ne {α β : Type} [DecidableEq α] (l : List (α × β))
    (k k' : α) (v : β) (h : k' ≠ k) :
    alGet (alSet l k v) k' = alGet l k' := by
  induction l with
  | nil => simp [alGet, alSet, Ne.symm h]
  | cons p rest ih =>
    obtain ⟨pk, pv⟩ := p
    by_cases hp : pk = k
    · subst hp
      simp [alSet, alGet, Ne.symm h]
    · by_cases hp' : pk = k'
      · subst hp'
        simp [alSet, hp, alGet]
      · simp [alSet, hp, alGet, hp', ih]

theorem mem_zmembers_zinsert (z : List (JobId × Int)) (j j' : JobId) (sc : Int) :
    j' ∈ zmembers (zinsert j sc z) ↔ j' = j ∨ j' ∈ zmembers z := by
  induction z with
  | nil => simp [zinsert, zmembers]
  | cons p rest ih =>
    unfold zinsert
    by_cases h : sc < p.2 ∨ (sc = p.2 ∧ JobId.ltb j p.1)
    · rw [if_pos h]
      simp [zmembers]
    · rw [if_neg h]
      simp only [zmembers, List.map_cons, List.mem_cons] at ih ⊢
      rw [ih]
      tauto

theorem mem_zmembers_zadd (z : List (JobId × Int)) (j j' : JobId) (sc : Int) :
    j' ∈ zmembers (zadd z j sc) ↔ j' = j ∨ j' ∈ zmembers z := by
  unfold zadd
  rw [mem_zmembers_zinsert]
  constructor
  · rintro (h | h)
    · exact Or.inl h
    · refine Or.inr ?_
      simp only [zmembers, List.mem_map] at h ⊢
      obtain ⟨p, hp, hpe⟩ := h
      exact ⟨p, (List.mem_filter.mp hp).1, hpe⟩
  · rintro (h | h)
    · exact Or.inl h
    · by_cases hj : j' = j
      · exact Or.inl hj
      · refine Or.inr ?_
        simp only [zmembers, List.mem_map] at h ⊢
        obtain ⟨p, hp, hpe⟩ := h
        refine ⟨p, List.mem_filter.mpr ⟨hp, ?_⟩, hpe⟩
        simp [hpe, hj]

theorem mem_zmembers_zrem (z : List (JobId × Int)) (j j' : JobId) :
    j' ∈ zmembers (zrem z j) ↔ j' ∈ zmembers z ∧ j' ≠ j := by
  unfold zrem
  simp only [zmembers, List.mem_map]
  constructor
  · rintro ⟨p, hp, hpe⟩
    have := List.mem_filter.mp hp
    refine ⟨⟨p, this.1, hpe⟩, ?_⟩
    have h2 := this.2
    simp only [decide_eq_true_eq] at h2
    simpa [hpe] using h2
  · rintro ⟨⟨p, hp, hpe⟩, hne⟩
    exact ⟨p, List.mem_filter.mpr ⟨hp, by simp [hpe, hne]⟩, hpe⟩

theorem mem_zmembers_of_zrange00 (z : List (JobId × Int)) (j : JobId)
    (h : zrange00 z = some j) : j ∈ zmembers z := by
  unfold zrange00 at h
  cases z with
  | nil => simp [List.head?] at h
  | cons p rest =>
    simp only [List.head?, Option.map_some] at h
    simp [zmembers, ← Option.some_inj.mp h]

theorem zscore_isSome_iff (z : List (JobId × Int)) (j : JobId) :
    (zscore z j).isSome ↔ j ∈ zmembers z := by
  unfold zscore
  induction z with
  | nil => simp [alGet, zmembers]
  | cons p rest ih =>
    by_cases h : p.1 = j
    · simp [alGet, h, zmembers]
    · simp [alGet, h, zmembers, Ne.symm h] at ih ⊢
      simpa [zmembers] using ih

/-! Lemmas about the state accessors under the state mutators.  Most are
definitional: a record update only touches one field. -/

theorem dataOf_setData_self (s : RState) (qn : String) (j : JobId) (job : Job) :
    dataOf (setData s qn j job) qn j = some job :=
  alGet_alSet_self _ _ _

theorem dataOf_setData_ne (s : RState) (qn qn' : String) (j j' : JobId)
    (job : Job) (h : (qn', j') ≠ (qn, j)) :
    dataOf (setData s qn j job) qn' j' = dataOf s qn' j' :=
  alGet_alSet_ne _ _ _ _ h

theorem waitOf_setWait_self (s : RState) (qn : String) (z : List (JobId × Int)) :
    waitOf (setWait s qn z) qn = z := by
  simp [waitOf, setWait, alGet_alSet_self]

theorem waitOf_setWait_ne (s : RState) (qn qn' : String) (z : List (JobId × Int))
    (h : qn' ≠ qn) : waitOf (setWait s qn z) qn' = waitOf s qn' := by
  simp [waitOf, setWait, alGet_alSet_ne _ _ _ _ h]

theorem activeOf_setActive_self (s : RState) (qn : String) (z : List (JobId × Int)) :
    activeOf (setActive s qn z) qn = z := by
  simp [activeOf, setActive, alGet_alSet_self]

theorem activeOf_setActive_ne (s : RState) (qn qn' : String) (z : List (JobId × Int))
    (h : qn' ≠ qn) : activeOf (setActive s qn z) qn' = activeOf s qn' := by
  simp [activeOf, setActive, alGet_alSet_ne _ _ _ _ h]

theorem completedOf_setCompleted_self (s : RState) (qn : String)
    (z : List (JobId × Int)) : completedOf (setCompleted s qn z) qn = z := by
  simp [completedOf, setCompleted, alGet_alSet_self]

theorem completedOf_setCompleted_ne (s : RState) (qn qn' : String)
    (z : List (JobId × Int)) (h : qn' ≠ qn) :
    completedOf (setCompleted s qn z) qn' = completedOf s qn' := by
  simp [completedOf, setCompleted, alGet_alSet_ne _ _ _ _ h]

/-! Record updates of one state field leave the other accessors unchanged;
all of these are definitional. -/

@[simp] theorem dataOf_setWait (s : RState) (qn qn' : String) (z : List (JobId × Int))
    (j : JobId) : dataOf (setWait s qn z) qn' j = dataOf s qn' j := rfl

@[simp] theorem dataOf_setActive (s : RState) (qn qn' : String) (z : List (JobId × Int))
    (j : JobId) : dataOf (setActive s qn z) qn' j = dataOf s qn' j := rfl

@[simp] theorem dataOf_setCompleted (s : RState) (qn qn' : String)
    (z : List (JobId × Int)) (j : JobId) :
    dataOf (setCompleted s qn z) qn' j = dataOf s qn' j := rfl

@[simp] theorem dataOf_hincr (s : RState) (qn qn' f : String) (d : Int) (j : JobId) :
    dataOf (hincr s qn f d) qn' j = dataOf s qn' j := rfl

@[simp] theorem waitOf_setData (s : RState) (qn qn' : String) (j : JobId) (job : Job) :
    waitOf (setData s qn j job) qn' = waitOf s qn' := rfl

@[simp] theorem waitOf_setActive (s : RState) (qn qn' : String) (z : List (JobId × Int)) :
    waitOf (setActive s qn z) qn' = waitOf s qn' := rfl

@[simp] theorem waitOf_setCompleted (s : RState) (qn qn' : String)
    (z : List (JobId × Int)) : waitOf (setCompleted s qn z) qn' = waitOf s qn' := rfl

@[simp] theorem waitOf_hincr (s : RState) (qn qn' f : String) (d : Int) :
    waitOf (hincr s qn f d) qn' = waitOf s qn' := rfl

@[simp] theorem activeOf_setData (s : RState) (qn qn' : String) (j : JobId) (job : Job) :
    activeOf (setData s qn j job) qn' = activeOf s qn' := rfl

@[simp] theorem activeOf_setWait (s : RState) (qn qn' : String) (z : List (JobId × Int)) :
    activeOf (setWait s qn z) qn' = activeOf s qn' := rfl

@[simp] theorem activeOf_setCompleted (s : RState) (qn qn' : String)
    (z : List (JobId × Int)) : activeOf (setCompleted s qn z) qn' = activeOf s qn' := rfl

@[simp] theorem activeOf_hincr (s : RState) (qn qn' f : String) (d : Int) :
    activeOf (hincr s qn f d) qn' = activeOf s qn' := rfl

@[simp] theorem completedOf_setData (s : RState) (qn qn' : String) (j : JobId)
    (job : Job) : completedOf (setData s qn j job) qn' = completedOf s qn' := rfl

@[simp] theorem completedOf_setWait (s : RState) (qn qn' : String)
    (z : List (JobId × Int)) : completedOf (setWait s qn z) qn' = completedOf s qn' := rfl

@[simp] theorem completedOf_setActive (s : RState) (qn qn' : String)
    (z : List (JobId × Int)) : completedOf (setActive s qn z) qn' = completedOf s qn' := rfl

@[simp] theorem completedOf_hincr (s : RState) (qn qn' f : String) (d : Int) :
    completedOf (hincr s qn f d) qn' = completedOf s qn' := rfl

@[simp] theorem clock_setData (s : RState) (qn : String) (j : JobId) (job : Job) :
    (setData s qn j job).clock = s.clock := rfl

@[simp] theorem clock_setWait (s : RState) (qn : String) (z : List (JobId × Int)) :
    (setWait s qn z).clock = s.clock := rfl

@[simp] theorem clock_setActive (s : RState) (qn : String) (z : List (JobId × Int)) :
    (setActive s qn z).clock = s.clock := rfl

@[simp] theorem clock_setCompleted (s : RState) (qn : String) (z : List (JobId × Int)) :
    (setCompleted s qn z).clock = s.clock := rfl

@[simp] theorem clock_hincr (s : RState) (qn f : String) (d : Int) :
    (hincr s qn f d).clock = s.clock := rfl

/-! The store invariant maintained by the engine. -/

/-- The queue that holds a task record, as a function of its fields: the
queue type is "escalated" for escalated tasks and the hash algorithm
otherwise, exactly as add_review_task chooses it. -/
def canonicalQueue (job : Job) : String :=
  get_queue_name (if job.isEscalated then QueueNames.ESCALATED else job.hashAlgorithm)
    job.contentCategory job.isEscalated

/-- The field validity add_review_task enforces. -/
def ValidJob (job : Job) : Prop :=
  job.contentCategory ∈ CONTENT_CATEGORIES ∧
  (job.hashAlgorithm ∈ QueueNames.get_hash_types ∨
    job.hashAlgorithm = QueueNames.MANUAL) ∧
  job.confidenceLevel ∈ ConfidenceLevels.get_all

/-- Store invariant: every stored task record carries its own id, valid
fields, lives exactly in the queue its fields determine, has a timestamp in
the past of the clock, and its status names exactly the one lifecycle set
(wait / active / completed) of its queue that contains the id; every set
member has a record, and ids are globally unique across queues. -/
structure Inv (s : RState) : Prop where
  dataSound : ∀ qn j job, dataOf s qn j = some job →
      job.id = j ∧ ValidJob job ∧ qn = canonicalQueue job ∧ j.ms < s.clock
  statusSound : ∀ qn j job, dataOf s qn j = some job →
      job.status = "pending" ∨ job.status = "active" ∨ job.status = "completed"
  waitIff : ∀ qn j job, dataOf s qn j = some job →
      (j ∈ zmembers (waitOf s qn) ↔ job.status = "pending")
  activeIff : ∀ qn j job, dataOf s qn j = some job →
      (j ∈ zmembers (activeOf s qn) ↔ job.status = "active")
  completedIff : ∀ qn j job, dataOf s qn j = some job →
      (j ∈ zmembers (completedOf s qn) ↔ job.status = "completed")
  waitData : ∀ qn j, j ∈ zmembers (waitOf s qn) → (dataOf s qn j).isSome
  activeData : ∀ qn j, j ∈ zmembers (activeOf s qn) → (dataOf s qn j).isSome
  completedData : ∀ qn j, j ∈ zmembers (completedOf s qn) → (dataOf s qn j).isSome
  uniq : ∀ qn qn' j, (dataOf s qn j).isSome → (dataOf s qn' j).isSome → qn = qn'

theorem Inv_initState : Inv initState := by
  constructor <;>
    simp [initState, dataOf, waitOf, activeOf, completedOf, alGet, zmembers]

/-! Characterization of add_review_task. -/

/-- The record written by a successful add_review_task call. -/
def addedJob (s : RState) (i : Int) (c ha cf : String) (e : Bool)
    (m : TaskMeta) : Job :=
  { id := ⟨s.clock, i⟩, imageId := i, contentCategory := c, hashAlgorithm := ha,
    confidenceLevel := cf, isEscalated := e, status := "pending", result := none,
    notes := none, metadata := m }

/-- The queue a successful add_review_task call writes into. -/
def addedQueue (c ha : String) (e : Bool) : String :=
  get_queue_name (if e then QueueNames.ESCALATED else ha) c e

theorem add_invalid_cat (s : RState) (i : Int) (c ha cf : String) (e : Bool)
    (p : Int) (m : TaskMeta) (h : c ∉ CONTENT_CATEGORIES) :
    add_review_task s i c ha cf e p m =
      (Except.error ("Invalid content category: " ++ c), s) := by
  simp [add_review_task, h]

theorem add_invalid_alg (s : RState) (i : Int) (c ha cf : String) (e : Bool)
    (p : Int) (m : TaskMeta) (h1 : c ∈ CONTENT_CATEGORIES)
    (h : ha ∉ QueueNames.get_hash_types ∧ ha ≠ QueueNames.MANUAL) :
    add_review_task s i c ha cf e p m =
      (Except.error ("Invalid hash algorithm: " ++ ha), s) := by
  simp [add_review_task, h1, h]

theorem add_invalid_conf (s : RState) (i : Int) (c ha cf : String) (e : Bool)
    (p : Int) (m : TaskMeta) (h1 : c ∈ CONTENT_CATEGORIES)
    (h2 : ha ∈ QueueNames.get_hash_types ∨ ha = QueueNames.MANUAL)
    (h : cf ∉ ConfidenceLevels.get_all) :
    add_review_task s i c ha cf e p m =
      (Except.error ("Invalid confidence level: " ++ cf), s) := by
  have h2' : ¬(ha ∉ QueueNames.get_hash_types ∧ ha ≠ QueueNames.MANUAL) := by tauto
  simp [add_review_task, h1, h2', h]

theorem add_valid_run (s : RState) (i : Int) (c ha cf : String) (e : Bool)
    (p : Int) (m : TaskMeta)
    (h1 : c ∈ CONTENT_CATEGORIES)
    (h2 : ha ∈ QueueNames.get_hash_types ∨ ha = QueueNames.MANUAL)
    (h3 : cf ∈ ConfidenceLevels.get_all) :
    add_review_task s i c ha cf e p m =
      (Except.ok ⟨s.clock, i⟩,
        { hincr (hincr (setWait (setData s (addedQueue c ha e) ⟨s.clock, i⟩
              (addedJob s i c ha cf e m)) (addedQueue c ha e)
              (zadd (waitOf s (addedQueue c ha e)) ⟨s.clock, i⟩ p))
              (addedQueue c ha e) "total" 1) (addedQueue c ha e) "pending" 1 with
          clock := s.clock + 1 }) := by
  have h2' : ¬(ha ∉ QueueNames.get_hash_types ∧ ha ≠ QueueNames.MANUAL) := by tauto
  simp only [add_review_task, if_neg (not_not_intro h1), if_neg h2',
    if_neg (not_not_intro h3)]
  rfl

@[simp] theorem dataOf_setClock (s : RState) (n : Nat) (qn : String) (j : JobId) :
    dataOf { s with clock := n } qn j = dataOf s qn j := rfl

@[simp] theorem waitOf_setClock (s : RState) (n : Nat) (qn : String) :
    waitOf { s with clock := n } qn = waitOf s qn := rfl

@[simp] theorem activeOf_setClock (s : RState) (n : Nat) (qn : String) :
    activeOf { s with clock := n } qn = activeOf s qn := rfl

@[simp] theorem completedOf_setClock (s : RState) (n : Nat) (qn : String) :
    completedOf { s with clock := n } qn = completedOf s qn := rfl

theorem add_valid_fst (s : RState) (i : Int) (c ha cf : String) (e : Bool)
    (p : Int) (m : TaskMeta)
    (h1 : c ∈ CONTENT_CATEGORIES)
    (h2 : ha ∈ QueueNames.get_hash_types ∨ ha = QueueNames.MANUAL)
    (h3 : cf ∈ ConfidenceLevels.get_all) :
    (add_review_task s i c ha cf e p m).1 = Except.ok ⟨s.clock, i⟩ := by
  rw [add_valid_run s i c ha cf e p m h1 h2 h3]

theorem add_valid_clock (s : RState) (i : Int) (c ha cf : String) (e : Bool)
    (p : Int) (m : TaskMeta)
    (h1 : c ∈ CONTENT_CATEGORIES)
    (h2 : ha ∈ QueueNames.get_hash_types ∨ ha = QueueNames.MANUAL)
    (h3 : cf ∈ ConfidenceLevels.get_all) :
    (add_review_task s i c ha cf e p m).2.clock = s.clock + 1 := by
  rw [add_valid_run s i c ha cf e p m h1 h2 h3]

theorem add_valid_dataOf (s : RState) (i : Int) (c ha cf : String) (e : Bool)
    (p : Int) (m : TaskMeta)
    (h1 : c ∈ CONTENT_CATEGORIES)
    (h2 : ha ∈ QueueNames.get_hash_types ∨ ha = QueueNames.MANUAL)
    (h3 : cf ∈ ConfidenceLevels.get_all) (qn : String) (j : JobId) :
    dataOf (add_review_task s i c ha cf e p m).2 qn j =
      if (qn, j) = (addedQueue c ha e, (⟨s.clock, i⟩ : JobId)) then
        some (addedJob s i c ha cf e m)
      else dataOf s qn j := by
  rw [add_valid_run s i c ha cf e p m h1 h2 h3]
  by_cases hk : (qn, j) = (addedQueue c ha e, (⟨s.clock, i⟩ : JobId))
  · rw [if_pos hk]
    rw [Prod.mk.injEq] at hk
    obtain ⟨hq, hj⟩ := hk
    subst hq
    subst hj
    simp [dataOf_setData_self]
  · rw [if_neg hk]
    simp [dataOf_setData_ne _ _ _ _ _ _ hk]

theorem add_valid_waitOf (s : RState) (i : Int) (c ha cf : String) (e : Bool)
    (p : Int) (m : TaskMeta)
    (h1 : c ∈ CONTENT_CATEGORIES)
    (h2 : ha ∈ QueueNames.get_hash_types ∨ ha = QueueNames.MANUAL)
    (h3 : cf ∈ ConfidenceLevels.get_all) (qn : String) :
    waitOf (add_review_task s i c ha cf e p m).2 qn =
      if qn = addedQueue c ha e then
        zadd (waitOf s (addedQueue c ha e)) ⟨s.clock, i⟩ p
      else waitOf s qn := by
  rw [add_valid_run s i c ha cf e p m h1 h2 h3]
  by_cases hq : qn = addedQueue c ha e
  · subst hq
    simp [waitOf_setWait_self]
  · rw [if_neg hq]
    simp [waitOf_setWait_ne _ _ _ _ hq]

theorem add_valid_activeOf (s : RState) (i : Int) (c ha cf : String) (e : Bool)
    (p : Int) (m : TaskMeta)
    (h1 : c ∈ CONTENT_CATEGORIES)
    (h2 : ha ∈ QueueNames.get_hash_types ∨ ha = QueueNames.MANUAL)
    (h3 : cf ∈ ConfidenceLevels.get_all) (qn : String) :
    activeOf (add_review_task s i c ha cf e p m).2 qn = activeOf s qn := by
  rw [add_valid_run s i c ha cf e p m h1 h2 h3]
  simp

theorem add_valid_completedOf (s : RState) (i : Int) (c ha cf : String) (e : Bool)
    (p : Int) (m : TaskMeta)
    (h1 : c ∈ CONTENT_CATEGORIES)
    (h2 : ha ∈ QueueNames.get_hash_types ∨ ha = QueueNames.MANUAL)
    (h3 : cf ∈ ConfidenceLevels.get_all) (qn : String) :
    completedOf (add_review_task s i c ha cf e p m).2 qn = completedOf s qn := by
  rw [add_valid_run s i c ha cf e p m h1 h2 h3]
  simp

/-! Freshness: a job id stamped with the current clock is nowhere in the
store. -/

theorem Inv.freshData {s : RState} (h : Inv s) (qn : String) (i : Int) :
    dataOf s qn ⟨s.clock, i⟩ = none := by
  cases hc : dataOf s qn ⟨s.clock, i⟩ with
  | none => rfl
  | some job =>
    have hms := (h.dataSound qn _ job hc).2.2.2
    simp at hms

theorem Inv.freshWait {s : RState} (h : Inv s) (qn : String) (i : Int) :
    (⟨s.clock, i⟩ : JobId) ∉ zmembers (waitOf s qn) := by
  intro hmem
  have := h.waitData qn _ hmem
  rw [h.freshData qn i] at this
  simp at this

theorem Inv.freshActive {s : RState} (h : Inv s) (qn : String) (i : Int) :
    (⟨s.clock, i⟩ : JobId) ∉ zmembers (activeOf s qn) := by
  intro hmem
  have := h.activeData qn _ hmem
  rw [h.freshData qn i] at this
  simp at this

theorem Inv.freshCompleted {s : RState} (h : Inv s) (qn : String) (i : Int) :
    (⟨s.clock, i⟩ : JobId) ∉ zmembers (completedOf s qn) := by
  intro hmem
  have := h.completedData qn _ hmem
  rw [h.freshData qn i] at this
  simp at this

/-- add_review_task preserves the store invariant. -/
theorem Inv_add (s : RState) (h : Inv s) (i : Int) (c ha cf : String) (e : Bool)
    (p : Int) (m : TaskMeta) : Inv (add_review_task s i c ha cf e p m).2 := by
  by_cases h1 : c ∈ CONTENT_CATEGORIES
  case neg =>
    rw [add_invalid_cat s i c ha cf e p m h1]
    exact h
  by_cases h2 : ha ∈ QueueNames.get_hash_types ∨ ha = QueueNames.MANUAL
  case neg =>
    have h2' : ha ∉ QueueNames.get_hash_types ∧ ha ≠ QueueNames.MANUAL := by tauto
    rw [add_invalid_alg s i c ha cf e p m h1 h2']
    exact h
  by_cases h3 : cf ∈ ConfidenceLevels.get_all
  case neg =>
    rw [add_invalid_conf s i c ha cf e p m h1 h2 h3]
    exact h
  have hD := add_valid_dataOf s i c ha cf e p m h1 h2 h3
  have hW := add_valid_waitOf s i c ha cf e p m h1 h2 h3
  have hA := add_valid_activeOf s i c ha cf e p m h1 h2 h3
  have hC := add_valid_completedOf s i c ha cf e p m h1 h2 h3
  have hK := add_valid_clock s i c ha cf e p m h1 h2 h3
  constructor
  · -- dataSound
    intro qn j job hdj
    rw [hD] at hdj
    rw [hK]
    split_ifs at hdj with hk
    · rw [Prod.mk.injEq] at hk
      obtain ⟨hq, hj⟩ := hk
      obtain rfl : addedJob s i c ha cf e m = job := Option.some.inj hdj
      subst hq
      subst hj
      refine ⟨rfl, ⟨h1, h2, h3⟩, ?_, ?_⟩
      · simp [canonicalQueue, addedJob, addedQueue]
      · simp [addedJob]
    · obtain ⟨ha1, ha2, ha3, ha4⟩ := h.dataSound qn j job hdj
      exact ⟨ha1, ha2, ha3, Nat.lt_succ_of_lt ha4⟩
  · -- statusSound
    intro qn j job hdj
    rw [hD] at hdj
    split_ifs at hdj with hk
    · obtain rfl : addedJob s i c ha cf e m = job := Option.some.inj hdj
      left
      rfl
    · exact h.statusSound qn j job hdj
  · -- waitIff
    intro qn j job hdj
    rw [hD] at hdj
    rw [hW]
    split_ifs at hdj with hk
    · rw [Prod.mk.injEq] at hk
      obtain ⟨hq, hj⟩ := hk
      obtain rfl : addedJob s i c ha cf e m = job := Option.some.inj hdj
      subst hq
      subst hj
      rw [if_pos rfl, mem_zmembers_zadd]
      simp [addedJob]
    · by_cases hq : qn = addedQueue c ha e
      · subst hq
        rw [if_pos rfl, mem_zmembers_zadd]
        have hj : j ≠ (⟨s.clock, i⟩ : JobId) := fun hje => hk (by rw [hje])
        rw [h.waitIff _ j job hdj] at *
        constructor
        · rintro (hje | hmem)
          · exact absurd hje hj
          · exact hmem
        · intro hst
          exact Or.inr hst
      · rw [if_neg hq]
        exact h.waitIff qn j job hdj
  · -- activeIff
    intro qn j job hdj
    rw [hD] at hdj
    rw [hA]
    split_ifs at hdj with hk
    · rw [Prod.mk.injEq] at hk
      obtain ⟨hq, hj⟩ := hk
      obtain rfl : addedJob s i c ha cf e m = job := Option.some.inj hdj
      subst hq
      subst hj
      constructor
      · intro hmem
        exact absurd hmem (h.freshActive _ i)
      · intro hst
        simp [addedJob] at hst
    · exact h.activeIff qn j job hdj
  · -- completedIff
    intro qn j job hdj
    rw [hD] at hdj
    rw [hC]
    split_ifs at hdj with hk
    · rw [Prod.mk.injEq] at hk
      obtain ⟨hq, hj⟩ := hk
      obtain rfl : addedJob s i c ha cf e m = job := Option.some.inj hdj
      subst hq
      subst hj
      constructor
      · intro hmem
        exact absurd hmem (h.freshCompleted _ i)
      · intro hst
        simp [addedJob] at hst
    · exact h.completedIff qn j job hdj
  · -- waitData
    intro qn j hmem
    rw [hW] at hmem
    rw [hD]
    split_ifs at hmem with hq
    · subst hq
      rw [mem_zmembers_zadd] at hmem
      rcases hmem with hje | hmem
      · subst hje
        rw [if_pos rfl]
        simp
      · by_cases hj : j = (⟨s.clock, i⟩ : JobId)
        · subst hj
          rw [if_pos rfl]
          simp
        · rw [if_neg (by simp [hj])]
          exact h.waitData _ j hmem
    · have hold := h.waitData qn j hmem
      split_ifs with hk
      · simp
      · exact hold
  · -- activeData
    intro qn j hmem
    rw [hA] at hmem
    rw [hD]
    have hold := h.activeData qn j hmem
    split_ifs with hk
    · simp
    · exact hold
  · -- completedData
    intro qn j hmem
    rw [hC] at hmem
    rw [hD]
    have hold := h.completedData qn j hmem
    split_ifs with hk
    · simp
    · exact hold
  · -- uniq
    intro qn qn' j hq hq'
    rw [hD] at hq hq'
    split_ifs at hq hq' with hk hk' hk'
    · rw [Prod.mk.injEq] at hk hk'
      rw [hk.1, hk'.1]
    · rw [Prod.mk.injEq] at hk
      obtain ⟨-, hj⟩ := hk
      subst hj
      rw [h.freshData qn' i] at hq'
      simp at hq'
    · rw [Prod.mk.injEq] at hk'
      obtain ⟨-, hj⟩ := hk'
      subst hj
      rw [h.freshData qn i] at hq
      simp at hq
    · exact h.uniq qn qn' j hq hq'

/-! Characterization of get_next_task. -/

/-- What a successful scan guarantees: the selected job heads the wait set
of the selected queue, its record is stored there, and the queue is one of
the scanned (category, type) pairs. -/
theorem scanQueues_some (s : RState) (esc : Bool) (confs : Option (List String)) :
    ∀ pairs qn j job, scanQueues s esc confs pairs = some (qn, j, job) →
      zrange00 (waitOf s qn) = some j ∧ dataOf s qn j = some job ∧
        ∃ pr ∈ pairs, qn = get_queue_name pr.2 pr.1 esc := by
  intro pairs
  induction pairs with
  | nil =>
    intro qn j job hscan
    simp [scanQueues] at hscan
  | cons pr rest ih =>
    intro qn j job hscan
    obtain ⟨cat, qt⟩ := pr
    simp only [scanQueues] at hscan
    cases hz : zrange00 (waitOf s (get_queue_name qt cat esc)) with
    | none =>
      rw [hz] at hscan
      obtain ⟨ih1, ih2, pr', hpr', hqn'⟩ := ih qn j job hscan
      exact ⟨ih1, ih2, pr', List.mem_cons_of_mem _ hpr', hqn'⟩
    | some j0 =>
      rw [hz] at hscan
      dsimp only at hscan
      cases hd : dataOf s (get_queue_name qt cat esc) j0 with
      | none =>
        rw [hd] at hscan
        dsimp only at hscan
        obtain ⟨ih1, ih2, pr', hpr', hqn'⟩ := ih qn j job hscan
        exact ⟨ih1, ih2, pr', List.mem_cons_of_mem _ hpr', hqn'⟩
      | some job0 =>
        rw [hd] at hscan
        dsimp only at hscan
        by_cases hcf : confOk confs job0 = true
        · rw [if_pos hcf] at hscan
          have hinj : (get_queue_name qt cat esc, j0, job0) = (qn, j, job) :=
            Option.some.inj hscan
          rw [Prod.mk.injEq, Prod.mk.injEq] at hinj
          obtain ⟨hqn, hj, hjob⟩ := hinj
          subst hqn
          subst hj
          subst hjob
          exact ⟨hz, hd, ⟨(cat, qt), List.mem_cons_self _ _, rfl⟩⟩
        · rw [if_neg hcf] at hscan
          obtain ⟨ih1, ih2, pr', hpr', hqn'⟩ := ih qn j job hscan
          exact ⟨ih1, ih2, pr', List.mem_cons_of_mem _ hpr', hqn'⟩

theorem commit_fst (s : RState) (qn : String) (j : JobId) (job : Job) :
    (getNextCommit s qn j job).1 = some { job with status := "active" } := rfl

theorem commit_clock (s : RState) (qn : String) (j : JobId) (job : Job) :
    (getNextCommit s qn j job).2.clock = s.clock + 1 := rfl

theorem commit_dataOf (s : RState) (qn : String) (j : JobId) (job : Job)
    (qn' : String) (j' : JobId) :
    dataOf (getNextCommit s qn j job).2 qn' j' =
      if (qn', j') = (qn, j) then some { job with status := "active" }
      else dataOf s qn' j' := by
  by_cases hk : (qn', j') = (qn, j)
  · rw [if_pos hk]
    rw [Prod.mk.injEq] at hk
    obtain ⟨hq, hj⟩ := hk
    subst hq
    subst hj
    simp [getNextCommit, dataOf_setData_self]
  · rw [if_neg hk]
    simp [getNextCommit, dataOf_setData_ne _ _ _ _ _ _ hk]

theorem commit_waitOf (s : RState) (qn : String) (j : JobId) (job : Job)
    (qn' : String) :
    waitOf (getNextCommit s qn j job).2 qn' =
      if qn' = qn then zrem (waitOf s qn) j else waitOf s qn' := by
  by_cases hq : qn' = qn
  · subst hq
    simp [getNextCommit, waitOf_setWait_self]
  · rw [if_neg hq]
    simp [getNextCommit, waitOf_setWait_ne _ _ _ _ hq]

theorem commit_activeOf (s : RState) (qn : String) (j : JobId) (job : Job)
    (qn' : String) :
    activeOf (getNextCommit s qn j job).2 qn' =
      if qn' = qn then zadd (activeOf s qn) j (Int.ofNat s.clock)
      else activeOf s qn' := by
  by_cases hq : qn' = qn
  · subst hq
    simp [getNextCommit, activeOf_setActive_self]
  · rw [if_neg hq]
    simp [getNextCommit, activeOf_setActive_ne _ _ _ _ hq]

theorem commit_completedOf (s : RState) (qn : String) (j : JobId) (job : Job)
    (qn' : String) :
    completedOf (getNextCommit s qn j job).2 qn' = completedOf s qn' := by
  simp [getNextCommit]

/-- The commit phase of get_next_task preserves the store invariant when
applied to a job actually heading the wait set with its record stored. -/
theorem Inv_commit (s : RState) (h : Inv s) (qn : String) (j : JobId) (job : Job)
    (hd : dataOf s qn j = some job) (hmem : j ∈ zmembers (waitOf s qn)) :
    Inv (getNextCommit s qn j job).2 := by
  have hpend : job.status = "pending" := (h.waitIff qn j job hd).mp hmem
  have hDmono : ∀ qn' j', (dataOf s qn' j').isSome →
      (dataOf (getNextCommit s qn j job).2 qn' j').isSome := by
    intro qn' j' hs
    rw [commit_dataOf]
    split_ifs with hk
    · simp
    · exact hs
  constructor
  · -- dataSound
    intro qn' j' job' hdj
    rw [commit_dataOf] at hdj
    rw [commit_clock]
    split_ifs at hdj with hk
    · rw [Prod.mk.injEq] at hk
      obtain ⟨hq, hj⟩ := hk
      obtain rfl : { job with status := "active" } = job' := Option.some.inj hdj
      subst hq
      subst hj
      obtain ⟨hs1, hs2, hs3, hs4⟩ := h.dataSound qn' j' job hd
      exact ⟨hs1, hs2, hs3, Nat.lt_succ_of_lt hs4⟩
    · obtain ⟨hs1, hs2, hs3, hs4⟩ := h.dataSound qn' j' job' hdj
      exact ⟨hs1, hs2, hs3, Nat.lt_succ_of_lt hs4⟩
  · -- statusSound
    intro qn' j' job' hdj
    rw [commit_dataOf] at hdj
    split_ifs at hdj with hk
    · obtain rfl : { job with status := "active" } = job' := Option.some.inj hdj
      right
      left
      rfl
    · exact h.statusSound qn' j' job' hdj
  · -- waitIff
    intro qn' j' job' hdj
    rw [commit_dataOf] at hdj
    rw [commit_waitOf]
    split_ifs at hdj with hk
    · rw [Prod.mk.injEq] at hk
      obtain ⟨hq, hj⟩ := hk
      obtain rfl : { job with status := "active" } = job' := Option.some.inj hdj
      subst hq
      subst hj
      rw [if_pos rfl, mem_zmembers_zrem]
      simp
    · by_cases hq : qn' = qn
      · subst hq
        rw [if_pos rfl, mem_zmembers_zrem]
        have hj : j' ≠ j := fun hje => hk (by rw [hje])
        rw [h.waitIff _ j' job' hdj]
        constructor
        · exact fun hx => hx.1
        · exact fun hx => ⟨hx, hj⟩
      · rw [if_neg hq]
        exact h.waitIff qn' j' job' hdj
  · -- activeIff
    intro qn' j' job' hdj
    rw [commit_dataOf] at hdj
    rw [commit_activeOf]
    split_ifs at hdj with hk
    · rw [Prod.mk.injEq] at hk
      obtain ⟨hq, hj⟩ := hk
      obtain rfl : { job with status := "active" } = job' := Option.some.inj hdj
      subst hq
      subst hj
      rw [if_pos rfl, mem_zmembers_zadd]
      simp
    · by_cases hq : qn' = qn
      · subst hq
        rw [if_pos rfl, mem_zmembers_zadd]
        have hj : j' ≠ j := fun hje => hk (by rw [hje])
        rw [h.activeIff _ j' job' hdj]
        constructor
        · rintro (hje | hx)
          · exact absurd hje hj
          · exact hx
        · exact fun hx => Or.inr hx
      · rw [if_neg hq]
        exact h.activeIff qn' j' job' hdj
  · -- completedIff
    intro qn' j' job' hdj
    rw [commit_dataOf] at hdj
    rw [commit_completedOf]
    split_ifs at hdj with hk
    · rw [Prod.mk.injEq] at hk
      obtain ⟨hq, hj⟩ := hk
      obtain rfl : { job with status := "active" } = job' := Option.some.inj hdj
      subst hq
      subst hj
      rw [h.completedIff qn' j' job hd, hpend]
      simp
    · exact h.completedIff qn' j' job' hdj
  · -- waitData
    intro qn' j' hmem'
    rw [commit_waitOf] at hmem'
    split_ifs at hmem' with hq
    · subst hq
      rw [mem_zmembers_zrem] at hmem'
      exact hDmono _ _ (h.waitData _ j' hmem'.1)
    · exact hDmono _ _ (h.waitData qn' j' hmem')
  · -- activeData
    intro qn' j' hmem'
    rw [commit_activeOf] at hmem'
    split_ifs at hmem' with hq
    · subst hq
      rw [mem_zmembers_zadd] at hmem'
      rcases hmem' with hje | hmem'
      · subst hje
        rw [commit_dataOf, if_pos rfl]
        simp
      · exact hDmono _ _ (h.activeData _ j' hmem')
    · exact hDmono _ _ (h.activeData qn' j' hmem')
  · -- completedData
    intro qn' j' hmem'
    rw [commit_completedOf] at hmem'
    exact hDmono _ _ (h.completedData qn' j' hmem')
  · -- uniq
    intro qn' qn'' j' hq hq'
    have hback : ∀ q, (dataOf (getNextCommit s qn j job).2 q j').isSome →
        (dataOf s q j').isSome := by
      intro q hx
      rw [commit_dataOf] at hx
      split_ifs at hx with hk
      · rw [Prod.mk.injEq] at hk
        rw [hk.1, hk.2, hd]
        simp
      · exact hx
    exact h.uniq qn' qn'' j' (hback _ hq) (hback _ hq')

/-! Characterization of complete_task. -/

theorem completeCore_clock (s : RState) (qn : String) (j : JobId) (job : Job)
    (result : String) (notes : Option String) :
    (completeCore s qn j job result notes).clock = s.clock := rfl

theorem completeCore_dataOf (s : RState) (qn : String) (j : JobId) (job : Job)
    (result : String) (notes : Option String) (qn' : String) (j' : JobId) :
    dataOf (completeCore s qn j job result notes) qn' j' =
      if (qn', j') = (qn, j) then
        some { job with
          status := "completed"
          result := some result
          notes := notesUpdate notes job.notes }
      else dataOf s qn' j' := by
  by_cases hk : (qn', j') = (qn, j)
  · rw [if_pos hk]
    rw [Prod.mk.injEq] at hk
    obtain ⟨hq, hj⟩ := hk
    subst hq
    subst hj
    simp [completeCore, dataOf_setData_self]
  · rw [if_neg hk]
    simp [completeCore, dataOf_setData_ne _ _ _ _ _ _ hk]

theorem completeCore_waitOf (s : RState) (qn : String) (j : JobId) (job : Job)
    (result : String) (notes : Option String) (qn' : String) :
    waitOf (completeCore s qn j job result notes) qn' = waitOf s qn' := by
  simp [completeCore]

theorem completeCore_activeOf (s : RState) (qn : String) (j : JobId) (job : Job)
    (result : String) (notes : Option String) (qn' : String) :
    activeOf (completeCore s qn j job result notes) qn' =
      if qn' = qn then zrem (activeOf s qn) j else activeOf s qn' := by
  by_cases hq : qn' = qn
  · subst hq
    simp [completeCore, activeOf_setActive_self]
  · rw [if_neg hq]
    simp [completeCore, activeOf_setActive_ne _ _ _ _ hq]

theorem completeCore_completedOf (s : RState) (qn : String) (j : JobId) (job : Job)
    (result : String) (notes : Option String) (qn' : String) :
    completedOf (completeCore s qn j job result notes) qn' =
      if qn' = qn then zadd (completedOf s qn) j (Int.ofNat s.clock)
      else completedOf s qn' := by
  by_cases hq : qn' = qn
  · subst hq
    simp [completeCore, completedOf_setCompleted_self]
  · rw [if_neg hq]
    simp [completeCore, completedOf_setCompleted_ne _ _ _ _ hq]

/-- The completion mutations preserve the store invariant when applied to
a job actually in the active set with its record stored. -/
theorem Inv_completeCore (s : RState) (h : Inv s) (qn : String) (j : JobId)
    (job : Job) (result : String) (notes : Option String)
    (hd : dataOf s qn j = some job) (hmem : j ∈ zmembers (activeOf s qn)) :
    Inv (completeCore s qn j job result notes) := by
  have hact : job.status = "active" := (h.activeIff qn j job hd).mp hmem
  have hDmono : ∀ qn' j', (dataOf s qn' j').isSome →
      (dataOf (completeCore s qn j job result notes) qn' j').isSome := by
    intro qn' j' hs
    rw [completeCore_dataOf]
    split_ifs with hk
    · simp
    · exact hs
  constructor
  · -- dataSound
    intro qn' j' job' hdj
    rw [completeCore_dataOf] at hdj
    rw [completeCore_clock]
    split_ifs at hdj with hk
    · rw [Prod.mk.injEq] at hk
      obtain ⟨hq, hj⟩ := hk
      obtain rfl := Option.some.inj hdj
      subst hq
      subst hj
      exact h.dataSound qn' j' job hd
    · exact h.dataSound qn' j' job' hdj
  · -- statusSound
    intro qn' j' job' hdj
    rw [completeCore_dataOf] at hdj
    split_ifs at hdj with hk
    · obtain rfl := Option.some.inj hdj
      right
      right
      rfl
    · exact h.statusSound qn' j' job' hdj
  · -- waitIff
    intro qn' j' job' hdj
    rw [completeCore_dataOf] at hdj
    rw [completeCore_waitOf]
    split_ifs at hdj with hk
    · rw [Prod.mk.injEq] at hk
      obtain ⟨hq, hj⟩ := hk
      obtain rfl := Option.some.inj hdj
      subst hq
      subst hj
      rw [h.waitIff qn' j' job hd, hact]
      simp
    · exact h.waitIff qn' j' job' hdj
  · -- activeIff
    intro qn' j' job' hdj
    rw [completeCore_dataOf] at hdj
    rw [completeCore_activeOf]
    split_ifs at hdj with hk
    · rw [Prod.mk.injEq] at hk
      obtain ⟨hq, hj⟩ := hk
      obtain rfl := Option.some.inj hdj
      subst hq
      subst hj
      rw [if_pos rfl, mem_zmembers_zrem]
      simp
    · by_cases hq : qn' = qn
      · subst hq
        rw [if_pos rfl, mem_zmembers_zrem]
        have hj : j' ≠ j := fun hje => hk (by rw [hje])
        rw [h.activeIff _ j' job' hdj]
        constructor
        · exact fun hx => hx.1
        · exact fun hx => ⟨hx, hj⟩
      · rw [if_neg hq]
        exact h.activeIff qn' j' job' hdj
  · -- completedIff
    intro qn' j' job' hdj
    rw [completeCore_dataOf] at hdj
    rw [completeCore_completedOf]
    split_ifs at hdj with hk
    · rw [Prod.mk.injEq] at hk
      obtain ⟨hq, hj⟩ := hk
      obtain rfl := Option.some.inj hdj
      subst hq
      subst hj
      rw [if_pos rfl, mem_zmembers_zadd]
      simp
    · by_cases hq : qn' = qn
      · subst hq
        rw [if_pos rfl, mem_zmembers_zadd]
        have hj : j' ≠ j := fun hje => hk (by rw [hje])
        rw [h.completedIff _ j' job' hdj]
        constructor
        · rintro (hje | hx)
          · exact absurd hje hj
          · exact hx
        · exact fun hx => Or.inr hx
      · rw [if_neg hq]
        exact h.completedIff qn' j' job' hdj
  · -- waitData
    intro qn' j' hmem'
    rw [completeCore_waitOf] at hmem'
    exact hDmono _ _ (h.waitData qn' j' hmem')
  · -- activeData
    intro qn' j' hmem'
    rw [completeCore_activeOf] at hmem'
    split_ifs at hmem' with hq
    · subst hq
      rw [mem_zmembers_zrem] at hmem'
      exact hDmono _ _ (h.activeData _ j' hmem'.1)
    · exact hDmono _ _ (h.activeData qn' j' hmem')
  · -- completedData
    intro qn' j' hmem'
    rw [completeCore_completedOf] at hmem'
    split_ifs at hmem' with hq
    · subst hq
      rw [mem_zmembers_zadd] at hmem'
      rcases hmem' with hje | hmem'
      · subst hje
        rw [completeCore_dataOf, if_pos rfl]
        simp
      · exact hDmono _ _ (h.completedData _ j' hmem')
    · exact hDmono _ _ (h.completedData qn' j' hmem')
  · -- uniq
    intro qn' qn'' j' hq hq'
    have hback : ∀ q, (dataOf (completeCore s qn j job result notes) q j').isSome →
        (dataOf s q j').isSome := by
      intro q hx
      rw [completeCore_dataOf] at hx
      split_ifs at hx with hk
      · rw [Prod.mk.injEq] at hk
        rw [hk.1, hk.2, hd]
        simp
      · exact hx
    exact h.uniq qn' qn'' j' (hback _ hq) (hback _ hq')

/-- Bumping only the clock preserves the store invariant. -/
theorem Inv_clockUp (s : RState) (h : Inv s) :
    Inv { s with clock := s.clock + 1 } := by
  constructor
  · intro qn j job hdj
    rw [dataOf_setClock] at hdj
    obtain ⟨h1, h2, h3, h4⟩ := h.dataSound qn j job hdj
    exact ⟨h1, h2, h3, Nat.lt_succ_of_lt h4⟩
  · intro qn j job hdj
    rw [dataOf_setClock] at hdj
    exact h.statusSound qn j job hdj
  · intro qn j job hdj
    rw [dataOf_setClock] at hdj
    rw [waitOf_setClock]
    exact h.waitIff qn j job hdj
  · intro qn j job hdj
    rw [dataOf_setClock] at hdj
    rw [activeOf_setClock]
    exact h.activeIff qn j job hdj
  · intro qn j job hdj
    rw [dataOf_setClock] at hdj
    rw [completedOf_setClock]
    exact h.completedIff qn j job hdj
  · intro qn j hmem
    rw [waitOf_setClock] at hmem
    rw [dataOf_setClock]
    exact h.waitData qn j hmem
  · intro qn j hmem
    rw [activeOf_setClock] at hmem
    rw [dataOf_setClock]
    exact h.activeData qn j hmem
  · intro qn j hmem
    rw [completedOf_setClock] at hmem
    rw [dataOf_setClock]
    exact h.completedData qn j hmem
  · intro qn qn' j hq hq'
    rw [dataOf_setClock] at hq hq'
    exact h.uniq qn qn' j hq hq'

/-- complete_task preserves the store invariant. -/
theorem Inv_complete (s : RState) (h : Inv s) (j : JobId) (result : String)
    (notes : Option String) : Inv (complete_task s j result notes).2 := by
  unfold complete_task
  cases hfind : searchSpace.find? (fun qn => (zscore (activeOf s qn) j).isSome) with
  | none => exact h
  | some qn =>
    have hp := List.find?_some hfind
    simp only [] at hp
    have hmem : j ∈ zmembers (activeOf s qn) := (zscore_isSome_iff _ _).mp hp
    dsimp only
    cases hd : dataOf s qn j with
    | none => exact h
    | some job =>
      dsimp only
      have hcore := Inv_completeCore s h qn j job result notes hd hmem
      by_cases hr : result = "escalated"
      · rw [if_pos hr]
        have hinv2 := Inv_add (completeCore s qn j job result notes) hcore
          job.imageId job.contentCategory job.hashAlgorithm job.confidenceLevel
          true 10 { originalJobId := some j, notes := notes }
        cases har : (add_review_task (completeCore s qn j job result notes)
            job.imageId job.contentCategory job.hashAlgorithm job.confidenceLevel
            true 10 { originalJobId := some j, notes := notes }).1 with
        | ok v => exact hinv2
        | error e => exact hinv2
      · rw [if_neg hr]
        exact Inv_clockUp _ hcore

/-- get_next_task preserves the store invariant. -/
theorem Inv_next (s : RState) (h : Inv s)
    (a b c : Option (List String)) (d : Option Bool) :
    Inv (get_next_task s a b c d).2 := by
  unfold get_next_task
  cases hscan : scanQueues s (d.getD false) c (nextPairs a b d) with
  | none => exact h
  | some r =>
    obtain ⟨qn, j, job⟩ := r
    obtain ⟨hz, hd, -⟩ := scanQueues_some s (d.getD false) c _ qn j job hscan
    exact Inv_commit s h qn j job hd (mem_zmembers_of_zrange00 _ _ hz)

/-- Every engine call preserves the store invariant. -/
theorem Inv_applyOp (s : RState) (h : Inv s) (op : Op) : Inv (applyOp s op) := by
  cases op with
  | add i c ha cf e p m => exact Inv_add s h i c ha cf e p m
  | next a b c d => exact Inv_next s h a b c d
  | complete j r n => exact Inv_complete s h j r n

/-- The invariant holds after any call sequence from the empty store. -/
theorem Inv_runOps (ops : List Op) : Inv (runOps ops) := by
  suffices hgen : ∀ s, Inv s → Inv (ops.foldl applyOp s) from
    hgen initState Inv_initState
  induction ops with
  | nil =>
    intro s hs
    exact hs
  | cons op rest ih =>
    intro s hs
    exact ih _ (Inv_applyOp s hs op)

/-- Every reachable store state satisfies the invariant. -/
theorem Reachable.inv {s : RState} (h : Reachable s) : Inv s := by
  obtain ⟨ops, rfl⟩ := h
  exact Inv_runOps ops

/-- Reachability is closed under engine calls. -/
theorem Reachable.applyOp {s : RState} (h : Reachable s) (op : Op) :
    Reachable (applyOp s op) := by
  obtain ⟨ops, rfl⟩ := h
  refine ⟨ops ++ [op], ?_⟩
  rw [runOps, runOps, List.foldl_append]
  rfl

/-- Exactly one of three propositions holds. -/
def ExactlyOne (a b c : Prop) : Prop :=
  (a ∧ ¬b ∧ ¬c) ∨ (¬a ∧ b ∧ ¬c) ∨ (¬a ∧ ¬b ∧ c)

/-- C3: after any sequence of Add/GetNext/Complete operations from the
empty store, every created task id (every id with a stored record) is in
exactly one of the wait, active and completed sets of its owning queue —
and since every prefix of an operation sequence is again such a sequence,
this holds at every intermediate state. -/
theorem C3_state_exclusivity (s : RState) (hs : Reachable s) (qn : String)
    (j : JobId) (job : Job) (hd : dataOf s qn j = some job) :
    ExactlyOne (j ∈ zmembers (waitOf s qn)) (j ∈ zmembers (activeOf s qn))
      (j ∈ zmembers (completedOf s qn)) := by
  have h := hs.inv
  have hw := h.waitIff qn j job hd
  have ha := h.activeIff qn j job hd
  have hc := h.completedIff qn j job hd
  rcases h.statusSound qn j job hd with hst | hst | hst
  · rw [hst] at hw ha hc
    refine Or.inl ⟨hw.mpr rfl, ?_, ?_⟩
    · rw [ha]
      decide
    · rw [hc]
      decide
  · rw [hst] at hw ha hc
    refine Or.inr (Or.inl ⟨?_, ha.mpr rfl, ?_⟩)
    · rw [hw]
      decide
    · rw [hc]
      decide
  · rw [hst] at hw ha hc
    refine Or.inr (Or.inr ⟨?_, ?_, hc.mpr rfl⟩)
    · rw [hw]
      decide
    · rw [ha]
      decide

/-- Witness for C3 at a concrete one-operation trace. -/
theorem C3_state_exclusivity_witness :
    ExactlyOne
      ((⟨0, 1⟩ : JobId) ∈ zmembers
        (waitOf (runOps [Op.add 1 "spam" "pdq" "high" false 0 {}]) "review:pdq:spam"))
      ((⟨0, 1⟩ : JobId) ∈ zmembers
        (activeOf (runOps [Op.add 1 "spam" "pdq" "high" false 0 {}]) "review:pdq:spam"))
      ((⟨0, 1⟩ : JobId) ∈ zmembers
        (completedOf (runOps [Op.add 1 "spam" "pdq" "high" false 0 {}]) "review:pdq:spam")) :=
  C3_state_exclusivity (runOps [Op.add 1 "spam" "pdq" "high" false 0 {}])
    ⟨[Op.add 1 "spam" "pdq" "high" false 0 {}], rfl⟩ "review:pdq:spam" ⟨0, 1⟩
    { id := ⟨0, 1⟩, imageId := 1, contentCategory := "spam", hashAlgorithm := "pdq",
      confidenceLevel := "high", isEscalated := false, status := "pending",
      result := none, notes := none, metadata := {} }
    (by decide)

/-- C6: add_review_task with an invalid content category, an invalid hash
algorithm (not a hash type and not "manual"), or an invalid confidence
level fails with a ValueError and leaves the whole store untouched: no
record, no wait membership, no counter changes. -/
theorem C6_validation_no_mutation (s : RState) (i : Int) (c ha cf : String)
    (e : Bool) (p : Int) (m : TaskMeta)
    (hbad : c ∉ CONTENT_CATEGORIES ∨
      (ha ∉ QueueNames.get_hash_types ∧ ha ≠ QueueNames.MANUAL) ∨
      cf ∉ ConfidenceLevels.get_all) :
    (∃ msg, (add_review_task s i c ha cf e p m).1 = Except.error msg) ∧
    (add_review_task s i c ha cf e p m).2 = s := by
  by_cases h1 : c ∈ CONTENT_CATEGORIES
  case neg =>
    rw [add_invalid_cat s i c ha cf e p m h1]
    exact ⟨⟨_, rfl⟩, rfl⟩
  by_cases h2 : ha ∈ QueueNames.get_hash_types ∨ ha = QueueNames.MANUAL
  case neg =>
    have h2' : ha ∉ QueueNames.get_hash_types ∧ ha ≠ QueueNames.MANUAL := by tauto
    rw [add_invalid_alg s i c ha cf e p m h1 h2']
    exact ⟨⟨_, rfl⟩, rfl⟩
  by_cases h3 : cf ∈ ConfidenceLevels.get_all
  case neg =>
    rw [add_invalid_conf s i c ha cf e p m h1 h2 h3]
    exact ⟨⟨_, rfl⟩, rfl⟩
  exfalso
  rcases hbad with hb | hb | hb
  · exact hb h1
  · exact hb.2 (by tauto)
  · exact hb h3

/-- Witness for C6 at a concrete invalid category. -/
theorem C6_validation_no_mutation_witness :
    (∃ msg, (add_review_task initState 1 "bogus" "pdq" "high" false 0 {}).1 =
      Except.error msg) ∧
    (add_review_task initState 1 "bogus" "pdq" "high" false 0 {}).2 = initState :=
  C6_validation_no_mutation initState 1 "bogus" "pdq" "high" false 0 {}
    (Or.inl (by decide))

/-- All (queueType, category, escalated) triples over the fixed
enumerations, the inputs the spec quantifies QueueId over. -/
def allQueueTriples : List (String × String × Bool) :=
  QueueNames.get_all.flatMap (fun t =>
    CONTENT_CATEGORIES.flatMap (fun c => [(t, c, false), (t, c, true)]))

set_option maxRecDepth 40000 in
/-- C8: get_queue_name is a pure function (a Lean `def`), and over the
fixed enumerations it is injective: any two triples producing the same
queue-name string are equal, so changing any single input changes the
output. -/
theorem C8_queue_name_injective :
    ∀ t1 ∈ allQueueTriples, ∀ t2 ∈ allQueueTriples,
      get_queue_name t1.1 t1.2.1 t1.2.2 = get_queue_name t2.1 t2.2.1 t2.2.2 →
        t1 = t2 := by decide

/-- The spec's priority-ordering test seed: one queue (category "spam",
algorithm "pdq"), five tasks with priorities [1, 5, 3, 5, 2] in insertion
order (image ids 1..5). -/
def c1Ops : List Op :=
  [Op.add 1 "spam" "pdq" "high" false 1 {},
   Op.add 2 "spam" "pdq" "high" false 5 {},
   Op.add 3 "spam" "pdq" "high" false 3 {},
   Op.add 4 "spam" "pdq" "high" false 5 {},
   Op.add 5 "spam" "pdq" "high" false 2 {}]

def c1S0 : RState := runOps c1Ops

def c1R1 : Option Job × RState := get_next_task c1S0 none none none none

def c1R2 : Option Job × RState := get_next_task c1R1.2 none none none none

def c1R3 : Option Job × RState := get_next_task c1R2.2 none none none none

def c1R4 : Option Job × RState := get_next_task c1R3.2 none none none none

def c1R5 : Option Job × RState := get_next_task c1R4.2 none none none none

set_option maxRecDepth 40000 in
/-- C1 (code bug): on the spec's seed [1, 5, 3, 5, 2] the five successive
unfiltered GetNextTask calls return the tasks with image ids
[1, 5, 3, 2, 4], i.e. priorities in ASCENDING order [1, 2, 3, 5, 5] —
not the claimed [5, 5, 3, 2, 1].  get_next_task reads
`zrange(wait, 0, 0)`, the member with the LOWEST score, although the wait
set is scored by priority, its own comment says "Get highest priority
job", and the docstring says higher number = higher priority. -/
theorem C1_priority_order_bug :
    [c1R1.1.map Job.imageId, c1R2.1.map Job.imageId, c1R3.1.map Job.imageId,
     c1R4.1.map Job.imageId, c1R5.1.map Job.imageId] =
      [some 1, some 5, some 3, some 2, some 4] := by decide

/-- Witness for C8 at two concrete triples. -/
theorem C8_queue_name_injective_witness :
    ("pdq", "spam", false) ∈ allQueueTriples ∧
    ("pdq", "spam", true) ∈ allQueueTriples ∧
    get_queue_name "pdq" "spam" false ≠ get_queue_name "pdq" "spam" true := by
  refine ⟨by decide, by decide, fun heq => ?_⟩
  have := C8_queue_name_injective ("pdq", "spam", false) (by decide)
    ("pdq", "spam", true) (by decide) heq
  simp at this

/-- What membership in a get_queue_stats result implies: the record comes
from a (category, queue type) pair surviving the escalation filters, and
its fields are read off that queue's metrics. -/
theorem mem_get_queue_stats (s : RState) (cc ha : Option String)
    (e : Option Bool) (st : QueueStat) (h : st ∈ get_queue_stats s cc ha e) :
    ∃ cat ∈ strOrDefault cc CONTENT_CATEGORIES,
      ∃ qt ∈ strOrDefault ha QueueNames.get_all,
        ¬(e.getD false = true ∧ qt ≠ QueueNames.ESCALATED) ∧
        ¬(e = some false ∧ qt = QueueNames.ESCALATED) ∧
        st.queueName = get_queue_name qt cat (e.getD false) ∧
        st.isEscalated = e.getD false ∧
        st.completed = metricOf s st.queueName "completed" ∧
        st.successRate =
          (if metricOf s st.queueName "completed" > 0 then
            (metricOf s st.queueName "result:rejected" : Rat) /
              (metricOf s st.queueName "completed" : Rat) * 100
          else 0) := by
  unfold get_queue_stats at h
  rw [List.mem_flatMap] at h
  obtain ⟨cat, hcat, h⟩ := h
  rw [List.mem_filterMap] at h
  obtain ⟨qt, hqt, hft⟩ := h
  refine ⟨cat, hcat, qt, hqt, ?_⟩
  split_ifs at hft with hc1 hc2
  dsimp only at hft
  obtain rfl := (Option.some.inj hft).symm
  exact ⟨hc1, hc2, rfl, rfl, rfl, rfl⟩

/-- The spec's stats scenario: a (spam, pdq) queue whose four completions
carry results [approved, rejected, rejected, escalated]. -/
def c7Ops : List Op :=
  [Op.add 1 "spam" "pdq" "high" false 0 {},
   Op.add 2 "spam" "pdq" "high" false 0 {},
   Op.add 3 "spam" "pdq" "high" false 0 {},
   Op.add 4 "spam" "pdq" "high" false 0 {},
   Op.next none none none none,
   Op.next none none none none,
   Op.next none none none none,
   Op.next none none none none,
   Op.complete ⟨0, 1⟩ "approved" none,
   Op.complete ⟨1, 2⟩ "rejected" none,
   Op.complete ⟨2, 3⟩ "rejected" none,
   Op.complete ⟨3, 4⟩ "escalated" none]

def c7S : RState := runOps c7Ops

def c7Stats : List QueueStat := get_queue_stats c7S (some "spam") (some "pdq") none

set_option maxRecDepth 40000 in
/-- C7: every stat record reports completed equal to the queue's completed
counter and successRate equal to the result:rejected counter divided by the
completed counter times 100 (0 when the completed counter is 0); in the
scenario whose four completions carry [approved, rejected, rejected,
escalated], the (spam, pdq) queue reports completed = 4 and
successRate = 50. -/
theorem C7_success_rate :
    (∀ (s : RState) (cc ha : Option String) (e : Option Bool) st,
      st ∈ get_queue_stats s cc ha e →
        st.completed = metricOf s st.queueName "completed" ∧
        st.successRate =
          (if metricOf s st.queueName "completed" > 0 then
            (metricOf s st.queueName "result:rejected" : Rat) /
              (metricOf s st.queueName "completed" : Rat) * 100
          else 0)) ∧
    c7Stats.map (fun st => (st.completed, st.successRate)) = [(4, (50 : Rat))] := by
  constructor
  · intro s cc ha e st h
    obtain ⟨-, -, -, -, -, -, -, -, h7, h8⟩ := mem_get_queue_stats s cc ha e st h
    exact ⟨h7, h8⟩
  · have hq : c7Stats.map (fun st => (st.queueName, st.completed)) =
        [("review:pdq:spam", 4)] := by decide
    have hm1 : metricOf c7S "review:pdq:spam" "completed" = 4 := by decide
    have hm2 : metricOf c7S "review:pdq:spam" "result:rejected" = 2 := by decide
    cases hcs : c7Stats with
    | nil =>
      rw [hcs] at hq
      simp at hq
    | cons st rest =>
      rw [hcs] at hq
      cases rest with
      | cons st2 rest2 => simp at hq
      | nil =>
        simp only [List.map_cons, List.map_nil, List.cons.injEq, and_true,
          Prod.mk.injEq] at hq
        obtain ⟨hqn, hcomp⟩ := hq
        have hmem : st ∈ c7Stats := by
          rw [hcs]
          exact List.mem_cons_self _ _
        obtain ⟨-, -, -, -, -, -, -, -, -, h8⟩ :=
          mem_get_queue_stats c7S (some "spam") (some "pdq") none st hmem
        simp only [List.map_cons, List.map_nil, List.cons.injEq, and_true,
          Prod.mk.injEq]
        refine ⟨hcomp, ?_⟩
        rw [h8, hqn, hm1, hm2]
        norm_num

/-- A successful get_next_task call decomposes into its scan and commit
phases. -/
theorem get_next_some_elim (s : RState)
    (a b c : Option (List String)) (d : Option Bool) (job : Job)
    (h : (get_next_task s a b c d).1 = some job) :
    ∃ qn j job0,
      scanQueues s (d.getD false) c (nextPairs a b d) = some (qn, j, job0) ∧
      job = { job0 with status := "active" } ∧
      (get_next_task s a b c d).2 = (getNextCommit s qn j job0).2 := by
  unfold get_next_task at h ⊢
  cases hscan : scanQueues s (d.getD false) c (nextPairs a b d) with
  | none =>
    rw [hscan] at h
    simp at h
  | some r =>
    obtain ⟨qn, j, job0⟩ := r
    rw [hscan] at h
    refine ⟨qn, j, job0, rfl, ?_, rfl⟩
    exact (Option.some.inj h).symm

/-- One pending task: the store seeded for the dispatch-race scenario. -/
def c2S0 : RState := runOps [Op.add 1 "spam" "pdq" "high" false 0 {}]

/-- The record of that one task. -/
def c2Job : Job :=
  { id := ⟨0, 1⟩, imageId := 1, contentCategory := "spam", hashAlgorithm := "pdq",
    confidenceLevel := "high", isEscalated := false, status := "pending",
    result := none, notes := none, metadata := {} }

/-- C2 counterexample: get_next_task is a read-only scan (scanQueues)
followed by a separate mutation commit (getNextCommit), issued as distinct
store commands with no transaction or lock.  Interleave two callers at
that boundary on a store holding the single pending task ⟨0, 1⟩: caller A
scans, then caller B scans the still-unchanged store and selects the same
task, then both commit — and both calls return task ⟨0, 1⟩.  This refutes
the claim that the four mutations behave as one atomic transition so that
two concurrent callers never both receive the same task. -/
theorem C2_dispatch_race_counterexample :
    scanQueues c2S0 false none (nextPairs none none none) =
      some ("review:pdq:spam", ⟨0, 1⟩, c2Job) ∧
    (getNextCommit c2S0 "review:pdq:spam" ⟨0, 1⟩ c2Job).1 =
      some { c2Job with status := "active" } ∧
    (getNextCommit (getNextCommit c2S0 "review:pdq:spam" ⟨0, 1⟩ c2Job).2
        "review:pdq:spam" ⟨0, 1⟩ c2Job).1 =
      some { c2Job with status := "active" } := by
  refine ⟨by decide, rfl, rfl⟩

/-- C2 amended: under serialized (non-interleaved) execution the contract
does hold — two successive get_next_task calls on a reachable store never
return the same task id, because the first call removes the task from its
wait set and flips its status to active before returning. -/
theorem C2_serialized_at_most_once (s : RState) (hs : Reachable s)
    (a b c : Option (List String)) (d : Option Bool)
    (a' b' c' : Option (List String)) (d' : Option Bool) (job1 job2 : Job)
    (h1 : (get_next_task s a b c d).1 = some job1)
    (h2 : (get_next_task (get_next_task s a b c d).2 a' b' c' d').1 = some job2) :
    job1.id ≠ job2.id := by
  have hinv := hs.inv
  obtain ⟨qn, j, job0, hscan, hjob1, hst⟩ := get_next_some_elim s a b c d job1 h1
  obtain ⟨hz, hd, -⟩ := scanQueues_some s (d.getD false) c _ qn j job0 hscan
  have hid1 : job1.id = j := by
    rw [hjob1]
    exact (hinv.dataSound qn j job0 hd).1
  have hinv' : Inv (get_next_task s a b c d).2 := Inv_next s hinv a b c d
  have hd1 : dataOf (get_next_task s a b c d).2 qn j =
      some { job0 with status := "active" } := by
    rw [hst, commit_dataOf, if_pos rfl]
  obtain ⟨qn2, j2, job02, hscan2, hjob2, -⟩ :=
    get_next_some_elim (get_next_task s a b c d).2 a' b' c' d' job2 h2
  obtain ⟨hz2, hd2, -⟩ := scanQueues_some (get_next_task s a b c d).2
    (d'.getD false) c' _ qn2 j2 job02 hscan2
  have hmem2 : j2 ∈ zmembers (waitOf (get_next_task s a b c d).2 qn2) :=
    mem_zmembers_of_zrange00 _ _ hz2
  have hpend2 : job02.status = "pending" := (hinv'.waitIff qn2 j2 job02 hd2).mp hmem2
  have hid2 : job2.id = j2 := by
    rw [hjob2]
    exact (hinv'.dataSound qn2 j2 job02 hd2).1
  rw [hid1, hid2]
  intro hje
  subst hje
  have hq : qn = qn2 := hinv'.uniq qn qn2 j (by rw [hd1]; rfl) (by rw [hd2]; rfl)
  subst hq
  rw [hd1] at hd2
  have := Option.some.inj hd2
  rw [← this] at hpend2
  simp at hpend2

/-- The two-pending-task store for the amended-C2 witness. -/
def c2wOps : List Op :=
  [Op.add 1 "spam" "pdq" "high" false 0 {},
   Op.add 2 "spam" "pdq" "high" false 0 {}]

/-- The record returned by the first dispatch on that store. -/
def c2wJob1 : Job :=
  { id := ⟨0, 1⟩, imageId := 1, contentCategory := "spam", hashAlgorithm := "pdq",
    confidenceLevel := "high", isEscalated := false, status := "active",
    result := none, notes := none, metadata := {} }

/-- The record returned by the second dispatch on that store. -/
def c2wJob2 : Job :=
  { id := ⟨1, 2⟩, imageId := 2, contentCategory := "spam", hashAlgorithm := "pdq",
    confidenceLevel := "high", isEscalated := false, status := "active",
    result := none, notes := none, metadata := {} }

set_option maxRecDepth 40000 in
/-- Witness for the amended C2 on a store holding two pending tasks: the
two successive dispatches return different task ids. -/
theorem C2_serialized_at_most_once_witness : c2wJob1.id ≠ c2wJob2.id :=
  C2_serialized_at_most_once (runOps c2wOps) ⟨c2wOps, rfl⟩
    none none none none none none none none c2wJob1 c2wJob2
    (by decide) (by decide)

/-! Support for the complete_task claims. -/

/-- find? returns the designated element when it satisfies the predicate,
is in the list, and is the only member satisfying it. -/
theorem find?_eq_some_of_unique {α : Type} (l : List α) (p : α → Bool) (a : α)
    (ha : a ∈ l) (hpa : p a = true) (huniq : ∀ x ∈ l, p x = true → x = a) :
    l.find? p = some a := by
  induction l with
  | nil => simp at ha
  | cons b rest ih =>
    by_cases hb : p b = true
    · have hba : b = a := huniq b (List.mem_cons_self _ _) hb
      subst hba
      rw [List.find?_cons_of_pos _ hb]
    · rw [List.find?_cons_of_neg _ (by simpa using hb)]
      have hba : b ≠ a := fun hbe => hb (hbe ▸ hpa)
      have ha' : a ∈ rest := by
        rcases List.mem_cons.mp ha with hx | hx
        · exact absurd hx.symm hba
        · exact hx
      exact ih ha' (fun x hx hpx => huniq x (List.mem_cons_of_mem _ hx) hpx)

/-- The canonical queue of a valid job is among the queues complete_task
scans for the job. -/
theorem canonicalQueue_mem_searchSpace (job : Job) (hv : ValidJob job) :
    canonicalQueue job ∈ searchSpace := by
  obtain ⟨hc, halg, -⟩ := hv
  have hqt : (if job.isEscalated then QueueNames.ESCALATED
      else job.hashAlgorithm) ∈ QueueNames.get_all := by
    by_cases hesc : job.isEscalated = true
    · rw [if_pos hesc]
      decide
    · rw [if_neg hesc]
      rcases halg with hin | hman
      · simp only [QueueNames.get_hash_types, List.mem_cons,
          List.not_mem_nil, or_false] at hin
        rcases hin with h | h | h <;> rw [h] <;> decide
      · rw [hman]
        decide
  unfold searchSpace
  rw [List.mem_flatMap]
  refine ⟨job.contentCategory, hc, ?_⟩
  rw [List.mem_flatMap]
  refine ⟨_, hqt, ?_⟩
  rw [List.mem_map]
  refine ⟨job.isEscalated, ?_, rfl⟩
  cases job.isEscalated <;> decide

/-- Sorted insertion finds the inserted member when it was absent. -/
theorem alGet_zinsert_self (l : List (JobId × Int)) (j : JobId) (sc : Int)
    (hall : ∀ p ∈ l, p.1 ≠ j) : alGet (zinsert j sc l) j = some sc := by
  induction l with
  | nil => simp [zinsert, alGet]
  | cons p rest ih =>
    unfold zinsert
    by_cases hcond : sc < p.2 ∨ (sc = p.2 ∧ JobId.ltb j p.1)
    · rw [if_pos hcond]
      simp [alGet]
    · rw [if_neg hcond]
      have hp : p.1 ≠ j := hall p (List.mem_cons_self _ _)
      simp only [alGet, if_neg hp]
      exact ih (fun q hq => hall q (List.mem_cons_of_mem _ hq))

/-- ZADD leaves the member it inserted with exactly the given score. -/
theorem zscore_zadd_self (z : List (JobId × Int)) (j : JobId) (sc : Int) :
    zscore (zadd z j sc) j = some sc := by
  unfold zadd zscore
  apply alGet_zinsert_self
  intro p hp
  have := (List.mem_filter.mp hp).2
  simpa using this

/-- The active-set scan of complete_task locates exactly the queue holding
the job (on an invariant-satisfying store). -/
theorem complete_find_eq (s : RState) (h : Inv s) (qn : String) (j : JobId)
    (job : Job) (hd : dataOf s qn j = some job)
    (hmem : j ∈ zmembers (activeOf s qn)) :
    searchSpace.find? (fun q => (zscore (activeOf s q) j).isSome) = some qn := by
  apply find?_eq_some_of_unique
  · have hcan := (h.dataSound qn j job hd).2.2.1
    rw [hcan]
    exact canonicalQueue_mem_searchSpace job (h.dataSound qn j job hd).2.1
  · exact (zscore_isSome_iff _ _).mpr hmem
  · intro q hq hpq
    have hmemq : j ∈ zmembers (activeOf s q) := (zscore_isSome_iff _ _).mp hpq
    exact h.uniq q qn j (h.activeData q j hmemq) (by rw [hd]; rfl)

/-- complete_task on a job in no active set returns the NotFound outcome
and leaves the store untouched. -/
theorem complete_notFound (s : RState) (j : JobId) (result : String)
    (notes : Option String) (hno : ∀ qn, j ∉ zmembers (activeOf s qn)) :
    complete_task s j result notes = (Except.ok false, s) := by
  unfold complete_task
  have hfind : searchSpace.find?
      (fun q => (zscore (activeOf s q) j).isSome) = none := by
    rw [List.find?_eq_none]
    intro q hq
    intro hp
    exact hno q ((zscore_isSome_iff _ _).mp hp)
  rw [hfind]

/-- A located complete_task call succeeds and stores the completed record
in place. -/
theorem complete_success_run (s : RState) (h : Inv s) (qn : String) (j : JobId)
    (job : Job) (result : String) (notes : Option String)
    (hd : dataOf s qn j = some job) (hmem : j ∈ zmembers (activeOf s qn)) :
    (complete_task s j result notes).1 = Except.ok true ∧
    dataOf (complete_task s j result notes).2 qn j =
      some { job with
        status := "completed"
        result := some result
        notes := notesUpdate notes job.notes } := by
  have hv := (h.dataSound qn j job hd).2.1
  have hms := (h.dataSound qn j job hd).2.2.2
  have hfind := complete_find_eq s h qn j job hd hmem
  unfold complete_task
  rw [hfind]
  dsimp only
  rw [hd]
  dsimp only
  by_cases hr : result = "escalated"
  · rw [if_pos hr]
    rw [add_valid_fst (completeCore s qn j job result notes) job.imageId
      job.contentCategory job.hashAlgorithm job.confidenceLevel true 10
      { originalJobId := some j, notes := notes } hv.1 hv.2.1 hv.2.2]
    dsimp only
    refine ⟨rfl, ?_⟩
    rw [add_valid_dataOf (completeCore s qn j job result notes) job.imageId
      job.contentCategory job.hashAlgorithm job.confidenceLevel true 10
      { originalJobId := some j, notes := notes } hv.1 hv.2.1 hv.2.2 qn j]
    rw [if_neg ?hkey]
    case hkey =>
      intro hk
      rw [Prod.mk.injEq] at hk
      have hjms : j.ms = (completeCore s qn j job result notes).clock :=
        congrArg JobId.ms hk.2
      rw [completeCore_clock] at hjms
      rw [hjms] at hms
      exact lt_irrefl _ hms
    rw [completeCore_dataOf, if_pos rfl]
  · rw [if_neg hr]
    dsimp only
    refine ⟨rfl, ?_⟩
    rw [dataOf_setClock, completeCore_dataOf, if_pos rfl]

/-- C5: complete_task succeeds exactly when the task id is in some queue's
active set; when it is not, the call returns NotFound (Except.ok false)
with the store unchanged; consequently, completing the same id twice
succeeds the first time and returns NotFound with an unchanged store the
second time. -/
theorem C5_complete_iff_active (s : RState) (hs : Reachable s) (j : JobId)
    (result : String) (notes : Option String) :
    ((complete_task s j result notes).1 = Except.ok true ↔
      ∃ qn, j ∈ zmembers (activeOf s qn)) ∧
    ((∀ qn, j ∉ zmembers (activeOf s qn)) →
      complete_task s j result notes = (Except.ok false, s)) ∧
    (∀ result2 notes2, (complete_task s j result notes).1 = Except.ok true →
      complete_task (complete_task s j result notes).2 j result2 notes2 =
        (Except.ok false, (complete_task s j result notes).2)) := by
  have hinv := hs.inv
  have hfwd : (∃ qn, j ∈ zmembers (activeOf s qn)) →
      ((complete_task s j result notes).1 = Except.ok true ∧
        ∃ (qn : String) (job : Job),
          dataOf (complete_task s j result notes).2 qn j =
            some { job with
              status := "completed"
              result := some result
              notes := notesUpdate notes job.notes }) := by
    rintro ⟨qn, hmem⟩
    obtain ⟨job, hd⟩ :=
      Option.isSome_iff_exists.mp (hinv.activeData qn j hmem)
    obtain ⟨hok, hdat⟩ := complete_success_run s hinv qn j job result notes hd hmem
    exact ⟨hok, qn, job, hdat⟩
  refine ⟨⟨?_, fun hex => (hfwd hex).1⟩, ?_, ?_⟩
  · intro hok
    by_contra hnex
    push_neg at hnex
    have := complete_notFound s j result notes hnex
    rw [this] at hok
    simp at hok
  · intro hno
    exact complete_notFound s j result notes hno
  · intro result2 notes2 hok
    have hex : ∃ qn, j ∈ zmembers (activeOf s qn) := by
      by_contra hnex
      push_neg at hnex
      have := complete_notFound s j result notes hnex
      rw [this] at hok
      simp at hok
    obtain ⟨-, qn, job, hdat⟩ := hfwd hex
    have hinv' : Inv (complete_task s j result notes).2 :=
      Inv_complete s hinv j result notes
    apply complete_notFound
    intro qn' hmem'
    obtain ⟨job'', hd''⟩ :=
      Option.isSome_iff_exists.mp (hinv'.activeData qn' j hmem')
    have hact'' : job''.status = "active" :=
      (hinv'.activeIff qn' j job'' hd'').mp hmem'
    have hq : qn' = qn :=
      hinv'.uniq qn' qn j (by rw [hd'']; rfl) (by rw [hdat]; rfl)
    subst hq
    rw [hdat] at hd''
    have := Option.some.inj hd''
    rw [← this] at hact''
    simp at hact''

/-- C4: completing a task that is in an active set with result "escalated"
creates exactly one new pending task, in the escalated partition of the
same content category, carrying the same imageId / contentCategory /
hashAlgorithm / confidenceLevel, with isEscalated = true, wait-set score
(priority) 10, and metadata.originalJobId equal to the completed task's
id; completing with any other result (in particular "approved" or
"rejected") creates no new task. -/
theorem C4_escalation_spawn (s : RState) (hs : Reachable s) (qn : String)
    (j : JobId) (job : Job) (notes : Option String)
    (hd : dataOf s qn j = some job) (hmem : j ∈ zmembers (activeOf s qn)) :
    ((complete_task s j "escalated" notes).1 = Except.ok true ∧
      dataOf (complete_task s j "escalated" notes).2
          (get_queue_name QueueNames.ESCALATED job.contentCategory true)
          ⟨s.clock, job.imageId⟩ =
        some { id := ⟨s.clock, job.imageId⟩, imageId := job.imageId,
               contentCategory := job.contentCategory,
               hashAlgorithm := job.hashAlgorithm,
               confidenceLevel := job.confidenceLevel, isEscalated := true,
               status := "pending", result := none, notes := none,
               metadata := { originalJobId := some j, notes := notes } } ∧
      zscore (waitOf (complete_task s j "escalated" notes).2
          (get_queue_name QueueNames.ESCALATED job.contentCategory true))
          ⟨s.clock, job.imageId⟩ = some 10 ∧
      (∀ qn' j', dataOf s qn' j' = none →
        dataOf (complete_task s j "escalated" notes).2 qn' j' ≠ none →
          (qn', j') = (get_queue_name QueueNames.ESCALATED job.contentCategory true,
            (⟨s.clock, job.imageId⟩ : JobId)))) ∧
    (∀ result, result ≠ "escalated" → ∀ qn' j', dataOf s qn' j' = none →
      dataOf (complete_task s j result notes).2 qn' j' = none) := by
  have hinv := hs.inv
  have hv := (hinv.dataSound qn j job hd).2.1
  have hms := (hinv.dataSound qn j job hd).2.2.2
  constructor
  · have hfind := complete_find_eq s hinv qn j job hd hmem
    have hok := (complete_success_run s hinv qn j job "escalated" notes hd hmem).1
    refine ⟨hok, ?_⟩
    unfold complete_task
    rw [hfind]
    dsimp only
    rw [hd]
    dsimp only
    rw [if_pos rfl]
    rw [add_valid_fst (completeCore s qn j job "escalated" notes) job.imageId
      job.contentCategory job.hashAlgorithm job.confidenceLevel true 10
      { originalJobId := some j, notes := notes } hv.1 hv.2.1 hv.2.2]
    dsimp only
    refine ⟨?_, ?_, ?_⟩
    · rw [add_valid_dataOf (completeCore s qn j job "escalated" notes) job.imageId
        job.contentCategory job.hashAlgorithm job.confidenceLevel true 10
        { originalJobId := some j, notes := notes } hv.1 hv.2.1 hv.2.2]
      rw [if_pos (show
        (get_queue_name QueueNames.ESCALATED job.contentCategory true,
          (⟨s.clock, job.imageId⟩ : JobId)) =
        (addedQueue job.contentCategory job.hashAlgorithm true,
          (⟨(completeCore s qn j job "escalated" notes).clock,
            job.imageId⟩ : JobId)) from rfl)]
      rfl
    · rw [add_valid_waitOf (completeCore s qn j job "escalated" notes) job.imageId
        job.contentCategory job.hashAlgorithm job.confidenceLevel true 10
        { originalJobId := some j, notes := notes } hv.1 hv.2.1 hv.2.2]
      rw [if_pos (show
        get_queue_name QueueNames.ESCALATED job.contentCategory true =
        addedQueue job.contentCategory job.hashAlgorithm true from rfl)]
      exact zscore_zadd_self _ _ _
    · intro qn' j' hnone hsome
      rw [add_valid_dataOf (completeCore s qn j job "escalated" notes) job.imageId
        job.contentCategory job.hashAlgorithm job.confidenceLevel true 10
        { originalJobId := some j, notes := notes } hv.1 hv.2.1 hv.2.2] at hsome
      split_ifs at hsome with hk
      · exact hk
      · rw [completeCore_dataOf] at hsome
        split_ifs at hsome with hk2
        · rw [Prod.mk.injEq] at hk2
          rw [hk2.1, hk2.2, hd] at hnone
          simp at hnone
        · exact absurd hnone hsome
  · intro result hr qn' j' hnone
    have hfind := complete_find_eq s hinv qn j job hd hmem
    unfold complete_task
    rw [hfind]
    dsimp only
    rw [hd]
    dsimp only
    rw [if_neg hr]
    dsimp only
    rw [dataOf_setClock, completeCore_dataOf]
    split_ifs with hk2
    · rw [Prod.mk.injEq] at hk2
      rw [hk2.1, hk2.2, hd] at hnone
      simp at hnone
    · exact hnone

/-- The queue names of the escalated partitions: the only queues in which
escalated tasks are ever stored. -/
def escalatedPartitions : List String :=
  CONTENT_CATEGORIES.map (fun c => get_queue_name QueueNames.ESCALATED c true)

set_option maxRecDepth 100000 in
/-- No non-escalated queue name over the enumerations collides with an
escalated partition name. -/
theorem nonesc_name_ne_partition :
    ∀ qt ∈ QueueNames.get_all, ∀ cat ∈ CONTENT_CATEGORIES,
      ∀ c' ∈ CONTENT_CATEGORIES,
        get_queue_name qt cat false ≠
          get_queue_name QueueNames.ESCALATED c' true := by decide

/-- Elements of a validated optional-string filter stay in the default
enumeration. -/
theorem mem_strOrDefault (o : Option String) (d : List String) (x : String)
    (hval : ∀ y, o = some y → y ∈ d) (hx : x ∈ strOrDefault o d) : x ∈ d := by
  cases o with
  | none => exact hx
  | some y =>
    simp only [strOrDefault] at hx
    by_cases hy : y = ""
    · rw [if_pos hy] at hx
      exact hx
    · rw [if_neg hy] at hx
      simp only [List.mem_cons, List.not_mem_nil, or_false] at hx
      rw [hx]
      exact hval y rfl

/-- The store for the C9 counterexample: one (spam, pdq) task dispatched
and completed as escalated, so the escalated partition of "spam" holds one
pending task. -/
def c9Ops : List Op :=
  [Op.add 1 "spam" "pdq" "high" false 0 {},
   Op.next none none none none,
   Op.complete ⟨0, 1⟩ "escalated" none]

set_option maxRecDepth 40000 in
/-- C9 counterexample: get_queue_stats with is_escalated UNSET, category
filter "spam_escalated" and algorithm filter "escalated" (the filters are
never validated) returns exactly one record whose queueName is the real
escalated partition of "spam" — including its live pending counter — so a
call with isEscalated unset can return a record referring to an escalated
queue, refuting the claim as stated. -/
theorem C9_escalated_filter_counterexample :
    (get_queue_stats (runOps c9Ops) (some "spam_escalated") (some "escalated")
        none).map (fun st => (st.queueName, st.isEscalated, st.pending)) =
      [(get_queue_name QueueNames.ESCALATED "spam" true, false, 1)] ∧
    get_queue_name QueueNames.ESCALATED "spam" true ∈ escalatedPartitions := by
  constructor
  · decide
  · decide

/-- C9 amended: when the category and algorithm filters are drawn from the
fixed enumerations (or unset), get_queue_stats includes the escalated
partition only when isEscalated is explicitly true: with isEscalated unset
or false no returned record names an escalated partition and every record
carries isEscalated = false; with isEscalated = true every record names an
escalated partition with isEscalated = true, and with the algorithm filter
unset the records cover exactly the escalated partitions of the filtered
categories. -/
theorem C9_escalated_only_when_requested (s : RState) (cc ha : Option String)
    (e : Option Bool)
    (hcc : ∀ y, cc = some y → y ∈ CONTENT_CATEGORIES)
    (hha : ∀ y, ha = some y → y ∈ QueueNames.get_all) :
    (e ≠ some true → ∀ st ∈ get_queue_stats s cc ha e,
      st.queueName ∉ escalatedPartitions ∧ st.isEscalated = false) ∧
    (e = some true → ∀ st ∈ get_queue_stats s cc ha e,
      st.queueName ∈ escalatedPartitions ∧ st.isEscalated = true) ∧
    (e = some true → ha = none →
      (get_queue_stats s cc ha e).map QueueStat.queueName =
        (strOrDefault cc CONTENT_CATEGORIES).map
          (fun c => get_queue_name QueueNames.ESCALATED c true)) := by
  refine ⟨?_, ?_, ?_⟩
  · intro he st hst
    have hge : e.getD false = false := by
      cases e with
      | none => rfl
      | some b =>
        cases b with
        | true => exact absurd rfl he
        | false => rfl
    obtain ⟨cat, hcat, qt, hqt, -, -, hqn, hesc, -, -⟩ :=
      mem_get_queue_stats s cc ha e st hst
    have hcat' : cat ∈ CONTENT_CATEGORIES := mem_strOrDefault cc _ cat hcc hcat
    have hqt' : qt ∈ QueueNames.get_all := mem_strOrDefault ha _ qt hha hqt
    rw [hge] at hqn hesc
    refine ⟨?_, hesc⟩
    rw [hqn]
    intro hmem
    unfold escalatedPartitions at hmem
    rw [List.mem_map] at hmem
    obtain ⟨c', hc', hceq⟩ := hmem
    exact nonesc_name_ne_partition qt hqt' cat hcat' c' hc' hceq.symm
  · intro he st hst
    subst he
    obtain ⟨cat, hcat, qt, hqt, hc1, -, hqn, hesc, -, -⟩ :=
      mem_get_queue_stats s cc ha (some true) st hst
    have hcat' : cat ∈ CONTENT_CATEGORIES := mem_strOrDefault cc _ cat hcc hcat
    have hqtesc : qt = QueueNames.ESCALATED := by
      by_contra hne
      exact hc1 ⟨rfl, hne⟩
    subst hqtesc
    refine ⟨?_, hesc⟩
    rw [hqn]
    unfold escalatedPartitions
    rw [List.mem_map]
    exact ⟨cat, hcat', rfl⟩
  · intro he hhan
    subst he
    subst hhan
    unfold get_queue_stats
    generalize strOrDefault cc CONTENT_CATEGORIES = cats
    induction cats with
    | nil => simp
    | cons c cs ih =>
      simp only [List.flatMap_cons, List.map_cons, List.map_append]
      rw [ih]
      congr 1

set_option maxRecDepth 40000 in
/-- Witness for the amended C9 with validated filters (category "spam",
algorithm unset, isEscalated = true) on the escalation store. -/
theorem C9_escalated_only_when_requested_witness :
    ((some true : Option Bool) ≠ some true →
      ∀ st ∈ get_queue_stats (runOps c9Ops) (some "spam") none (some true),
        st.queueName ∉ escalatedPartitions ∧ st.isEscalated = false) ∧
    ((some true : Option Bool) = some true →
      ∀ st ∈ get_queue_stats (runOps c9Ops) (some "spam") none (some true),
        st.queueName ∈ escalatedPartitions ∧ st.isEscalated = true) ∧
    ((some true : Option Bool) = some true → (none : Option String) = none →
      (get_queue_stats (runOps c9Ops) (some "spam") none (some true)).map
          QueueStat.queueName =
        (strOrDefault (some "spam") CONTENT_CATEGORIES).map
          (fun c => get_queue_name QueueNames.ESCALATED c true)) :=
  C9_escalated_only_when_requested (runOps c9Ops) (some "spam") none (some true)
    (by
      intro y hy
      rw [← Option.some.inj hy]
      decide)
    (by
      intro y hy
      exact Option.noConfusion hy)

/-- The one-dispatched-task store for the C4 witness. -/
def c4Ops : List Op :=
  [Op.add 7 "spam" "pdq" "high" false 0 {}, Op.next none none none none]

/-- The active record completed in the C4 witness. -/
def c4Job : Job :=
  { id := ⟨0, 7⟩, imageId := 7, contentCategory := "spam", hashAlgorithm := "pdq",
    confidenceLevel := "high", isEscalated := false, status := "active",
    result := none, notes := none, metadata := {} }

set_option maxRecDepth 40000 in
/-- Witness for C4 on a store with one active (spam, pdq) task. -/
theorem C4_escalation_spawn_witness :
    ((complete_task (runOps c4Ops) ⟨0, 7⟩ "escalated" (some "x")).1 =
        Except.ok true ∧
      dataOf (complete_task (runOps c4Ops) ⟨0, 7⟩ "escalated" (some "x")).2
          (get_queue_name QueueNames.ESCALATED c4Job.contentCategory true)
          ⟨(runOps c4Ops).clock, c4Job.imageId⟩ =
        some { id := ⟨(runOps c4Ops).clock, c4Job.imageId⟩,
               imageId := c4Job.imageId,
               contentCategory := c4Job.contentCategory,
               hashAlgorithm := c4Job.hashAlgorithm,
               confidenceLevel := c4Job.confidenceLevel, isEscalated := true,
               status := "pending", result := none, notes := none,
               metadata := { originalJobId := some ⟨0, 7⟩, notes := some "x" } } ∧
      zscore (waitOf (complete_task (runOps c4Ops) ⟨0, 7⟩ "escalated" (some "x")).2
          (get_queue_name QueueNames.ESCALATED c4Job.contentCategory true))
          ⟨(runOps c4Ops).clock, c4Job.imageId⟩ = some 10 ∧
      (∀ qn' j', dataOf (runOps c4Ops) qn' j' = none →
        dataOf (complete_task (runOps c4Ops) ⟨0, 7⟩ "escalated" (some "x")).2
            qn' j' ≠ none →
          (qn', j') = (get_queue_name QueueNames.ESCALATED c4Job.contentCategory true,
            (⟨(runOps c4Ops).clock, c4Job.imageId⟩ : JobId)))) ∧
    (∀ result, result ≠ "escalated" →
      ∀ qn' j', dataOf (runOps c4Ops) qn' j' = none →
        dataOf (complete_task (runOps c4Ops) ⟨0, 7⟩ result (some "x")).2 qn' j' =
          none) :=
  C4_escalation_spawn (runOps c4Ops) ⟨c4Ops, rfl⟩ "review:pdq:spam" ⟨0, 7⟩
    c4Job (some "x") (by decide) (by decide)

/-! String-level facts about queue names, used to separate the scanned
queues from the manual queue. -/

theorem get_queue_name_data (qt cat : String) (es : Bool) :
    (get_queue_name qt cat es).data =
      ("review:" : String).data ++ (qt.data ++ ((":" : String).data ++
        (cat.data ++ (if es then ("_escalated" : String) else "").data))) := by
  cases es <;> simp [get_queue_name, String.data_append, List.append_assoc]

/-- Queue names built from queue types differing at some character
position are different strings, whatever the categories and flags. -/
theorem get_queue_name_ne_of_type (t1 t2 c1 c2 : String) (e1 e2 : Bool)
    (k : Nat) (h1 : k < t1.data.length) (h2 : k < t2.data.length)
    (hne : t1.data[k]? ≠ t2.data[k]?) :
    get_queue_name t1 c1 e1 ≠ get_queue_name t2 c2 e2 := by
  intro heq
  have hd := congrArg String.data heq
  rw [get_queue_name_data, get_queue_name_data] at hd
  have hidx : ∀ (t R : List Char), k < t.length →
      (("review:" : String).data ++ (t ++ R))[7 + k]? = t[k]? := by
    intro t R hk
    rw [List.getElem?_append_right (by
      show ("review:" : String).data.length ≤ 7 + k
      have h7 : ("review:" : String).data.length = 7 := rfl
      rw [h7]
      omega)]
    have h7 : ("review:" : String).data.length = 7 := rfl
    rw [h7]
    have hkk : 7 + k - 7 = k := by omega
    rw [hkk]
    exact List.getElem?_append_left hk
  have hcut := congrArg (fun l => l[7 + k]?) hd
  simp only [] at hcut
  rw [hidx t1.data _ h1, hidx t2.data _ h2] at hcut
  exact hne hcut

/-- The queue type of any scanned (category, type) pair of get_next_task
comes from the escalated singleton or from the hash-algorithms filter (its
default when absent). -/
theorem mem_nextPairs (a b : Option (List String)) (d : Option Bool)
    (c t : String) (h : (c, t) ∈ nextPairs a b d) :
    t ∈ (if d.getD false then [QueueNames.ESCALATED]
         else orDefault b QueueNames.get_hash_types) := by
  unfold nextPairs at h
  rw [List.mem_flatMap] at h
  obtain ⟨c', hc', h⟩ := h
  rw [List.mem_map] at h
  obtain ⟨t', ht', hte⟩ := h
  rw [Prod.mk.injEq] at hte
  obtain ⟨-, rfl⟩ := hte
  exact ht'

/-- C10: a task stored by add_review_task with hashAlgorithm "manual" and
isEscalated false lives only in the manual queue, which the default scan
(pdq, md5, sha1 — or the escalated partition when is_escalated is truthy)
never visits: no get_next_task call that omits the hash_algorithms filter
ever returns a non-escalated manual task. -/
theorem C10_manual_needs_filter (s : RState) (hs : Reachable s)
    (cats confs : Option (List String)) (escF : Option Bool) (job : Job)
    (hret : (get_next_task s cats none confs escF).1 = some job) :
    ¬(job.hashAlgorithm = QueueNames.MANUAL ∧ job.isEscalated = false) := by
  rintro ⟨hman, hesc⟩
  have hinv := hs.inv
  obtain ⟨qn, j, job0, hscan, hjob, -⟩ :=
    get_next_some_elim s cats none confs escF job hret
  obtain ⟨-, hd, pr, hpr, hqn⟩ :=
    scanQueues_some s (escF.getD false) confs _ qn j job0 hscan
  obtain ⟨c, t⟩ := pr
  have ht := mem_nextPairs cats none escF c t hpr
  have hcan : qn = canonicalQueue job0 := (hinv.dataSound qn j job0 hd).2.2.1
  have hman0 : job0.hashAlgorithm = QueueNames.MANUAL := by
    rw [hjob] at hman
    exact hman
  have hesc0 : job0.isEscalated = false := by
    rw [hjob] at hesc
    exact hesc
  have hcan2 : canonicalQueue job0 =
      get_queue_name QueueNames.MANUAL job0.contentCategory false := by
    unfold canonicalQueue
    rw [hesc0, hman0]
    simp
  have heq : get_queue_name t c (escF.getD false) =
      get_queue_name QueueNames.MANUAL job0.contentCategory false := by
    rw [← hqn, hcan, hcan2]
  by_cases hescb : escF.getD false = true
  · rw [if_pos hescb] at ht
    simp only [List.mem_cons, List.not_mem_nil, or_false] at ht
    rw [ht] at heq
    exact get_queue_name_ne_of_type QueueNames.ESCALATED QueueNames.MANUAL
      c job0.contentCategory (escF.getD false) false 0 (by decide) (by decide)
      (by decide) heq
  · rw [if_neg hescb] at ht
    have ht' : t ∈ QueueNames.get_hash_types := ht
    simp only [QueueNames.get_hash_types, List.mem_cons,
      List.not_mem_nil, or_false] at ht'
    rcases ht' with rfl | rfl | rfl
    · exact get_queue_name_ne_of_type QueueNames.PDQ QueueNames.MANUAL
        c job0.contentCategory (escF.getD false) false 0 (by decide) (by decide)
        (by decide) heq
    · exact get_queue_name_ne_of_type QueueNames.MD5 QueueNames.MANUAL
        c job0.contentCategory (escF.getD false) false 1 (by decide) (by decide)
        (by decide) heq
    · exact get_queue_name_ne_of_type QueueNames.SHA1 QueueNames.MANUAL
        c job0.contentCategory (escF.getD false) false 0 (by decide) (by decide)
        (by decide) heq

/-- The store for the C10 witness: one manual task and one pdq task; the
unfiltered dispatch returns the pdq task. -/
def c10Ops : List Op :=
  [Op.add 1 "spam" "manual" "high" false 0 {},
   Op.add 2 "spam" "pdq" "high" false 0 {}]

/-- The record returned by the unfiltered dispatch on that store. -/
def c10Job : Job :=
  { id := ⟨1, 2⟩, imageId := 2, contentCategory := "spam", hashAlgorithm := "pdq",
    confidenceLevel := "high", isEscalated := false, status := "active",
    result := none, notes := none, metadata := {} }

set_option maxRecDepth 40000 in
/-- Witness for C10: the unfiltered dispatch on the mixed store returns
the pdq task, and the theorem applies to it. -/
theorem C10_manual_needs_filter_witness :
    ¬(c10Job.hashAlgorithm = QueueNames.MANUAL ∧ c10Job.isEscalated = false) :=
  C10_manual_needs_filter (runOps c10Ops) ⟨c10Ops, rfl⟩ none none none c10Job
    (by decide)

/-- The one-dispatched-task store for the C5 witness. -/
def c5Ops : List Op :=
  [Op.add 1 "spam" "pdq" "high" false 0 {}, Op.next none none none none]

/-- Witness for C5 on a store with one active task. -/
theorem C5_complete_iff_active_witness :
    (((complete_task (runOps c5Ops) ⟨0, 1⟩ "approved" none).1 = Except.ok true ↔
      ∃ qn, (⟨0, 1⟩ : JobId) ∈ zmembers (activeOf (runOps c5Ops) qn)) ∧
    ((∀ qn, (⟨0, 1⟩ : JobId) ∉ zmembers (activeOf (runOps c5Ops) qn)) →
      complete_task (runOps c5Ops) ⟨0, 1⟩ "approved" none =
        (Except.ok false, runOps c5Ops)) ∧
    (∀ result2 notes2,
      (complete_task (runOps c5Ops) ⟨0, 1⟩ "approved" none).1 = Except.ok true →
      complete_task (complete_task (runOps c5Ops) ⟨0, 1⟩ "approved" none).2
          ⟨0, 1⟩ result2 notes2 =
        (Except.ok false, (complete_task (runOps c5Ops) ⟨0, 1⟩ "approved" none).2))) :=
  C5_complete_iff_active (runOps c5Ops) ⟨c5Ops, rfl⟩ ⟨0, 1⟩ "approved" none

end ReviewTool
